import Mathlib

/-!
Verification of the natural-language specification of `permute_qpgraph.py`
against a shallow embedding of its code.

The program builds admixture-graph topologies by randomised stepwise
addition with branch and bound.  Topologies are `xml.etree.ElementTree`
documents: ordered trees of elements, each with a tag and a string-valued
attribute map.  We embed elements as the mutual inductive `Elem` /
`ElemList` below (a nested `List Elem` field would force well-founded
recursion, which does not reduce in the kernel; the mutual form keeps
every operation computable by `rfl`/`decide`).

External collaborators are not modelled from code because their code is
not part of the repository: the `qpGraph` oracle (its log is consumed via
`extract_outliers`, which is modelled), `hashlib.sha1` and `Bio.Phylo`
(used only to produce the opaque graph-name string, modelled as the
`Config.graph_name` parameter), and all file IO / printing.
-/

mutual
/-- One XML element: tag, attribute list, ordered children.
`xml.etree.ElementTree.Element` stores attributes as a dict; we model it
as an association list queried by first match. -/
inductive Elem : Type where
  | mk (tag : String) (attrs : List (String × String)) (children : ElemList)
deriving DecidableEq

inductive ElemList : Type where
  | nil : ElemList
  | cons (e : Elem) (es : ElemList) : ElemList
deriving DecidableEq
end

/-- The tag of an element. -/
def Elem.tag : Elem → String
  | .mk t _ _ => t

/-- The attribute list of an element. -/
def Elem.attrs : Elem → List (String × String)
  | .mk _ a _ => a

/-- The children of an element. -/
def Elem.children : Elem → ElemList
  | .mk _ _ cs => cs

/-- `ElemList` to `List Elem`. -/
def ElemList.toList : ElemList → List Elem
  | .nil => []
  | .cons e es => e :: es.toList

/-- `List Elem` to `ElemList`. -/
def ofList : List Elem → ElemList
  | [] => .nil
  | e :: es => .cons e (ofList es)

@[simp] theorem toList_ofList (l : List Elem) : (ofList l).toList = l := by
  induction l with
  | nil => rfl
  | cons e es ih => simp [ofList, ElemList.toList, ih]

@[simp] theorem ofList_toList : (cs : ElemList) → ofList cs.toList = cs
  | .nil => rfl
  | .cons e es => by simp [ElemList.toList, ofList, ofList_toList es]

/-- The children of an element, as a plain list. -/
def Elem.childList (e : Elem) : List Elem := e.children.toList

/-- Element constructor taking a plain list of children. -/
def mkE (tag : String) (attrs : List (String × String)) (children : List Elem) : Elem :=
  .mk tag attrs (ofList children)

@[simp] theorem tag_mkE (t : String) (a : List (String × String)) (cs : List Elem) :
    (mkE t a cs).tag = t := rfl

@[simp] theorem attrs_mkE (t : String) (a : List (String × String)) (cs : List Elem) :
    (mkE t a cs).attrs = a := rfl

@[simp] theorem childList_mkE (t : String) (a : List (String × String)) (cs : List Elem) :
    (mkE t a cs).childList = cs := by
  simp [mkE, Elem.childList, Elem.children]

/-- `element.get(key)`: attribute lookup, `none` when absent. -/
def Elem.getAttr (e : Elem) (k : String) : Option String :=
  (e.attrs.find? (fun p => p.1 == k)).map (·.2)

mutual
/-- Document (pre-)order listing of an element and all of its
descendants; `element.iter()` order in `ElementTree`. -/
def preorder : Elem → List Elem
  | .mk t a cs => .mk t a cs :: preorderL cs

/-- Document-order listing of a forest of elements. -/
def preorderL : ElemList → List Elem
  | .nil => []
  | .cons c cs => preorder c ++ preorderL cs
end

/-- `tree.findall('.//*')`: every proper descendant of the root element,
in document order. -/
def descendants (e : Elem) : List Elem := preorderL e.children

@[simp] theorem preorder_mk (t : String) (a : List (String × String)) (cs : ElemList) :
    preorder (.mk t a cs) = .mk t a cs :: preorderL cs := by
  rw [preorder]

@[simp] theorem preorderL_nil : preorderL .nil = [] := by rw [preorderL]

@[simp] theorem preorderL_cons (c : Elem) (cs : ElemList) :
    preorderL (.cons c cs) = preorder c ++ preorderL cs := by rw [preorderL]

theorem preorderL_ofList (l : List Elem) :
    preorderL (ofList l) = l.flatMap preorder := by
  induction l with
  | nil => simp [ofList]
  | cons e es ih => simp [ofList, ih]

/-- An XPath target `.//tag` or `.//tag[@side="s"]`, as built by
`insert_node` from a target element's tag and (truthy) `side` attribute. -/
structure NodeKey where
  tag : String
  side : Option String
deriving DecidableEq

/-- The key `insert_node` would use to re-locate `e`: its tag, plus its
`side` attribute when that attribute is present and truthy (non-empty). -/
def keyOf (e : Elem) : NodeKey :=
  ⟨e.tag, match e.getAttr "side" with
          | some s => if s == "" then none else some s
          | none => none⟩

/-- Whether element `e` is selected by the XPath key `k`. -/
def matchKey (k : NodeKey) (e : Elem) : Bool :=
  k.tag == e.tag &&
    (match k.side with
     | none => true
     | some s => e.getAttr "side" == some s)

theorem matchKey_keyOf_self (e : Elem) : matchKey (keyOf e) e = true := by
  cases e with
  | mk t a cs =>
    simp only [matchKey, keyOf, Elem.tag]
    cases h : Elem.getAttr (.mk t a cs) "side" with
    | none => simp
    | some s =>
      by_cases hs : s == ""
      · simp [hs]
      · simp [hs, h]

mutual
/-- Path (list of child indices, root excluded) of the first element in
document order, among the proper descendants of the given element, that
matches the key; `tree.find('.//tag…')`. -/
def findPathE (k : NodeKey) : Elem → Option (List Nat)
  | .mk _ _ cs => findPathF k cs

/-- Same search over a forest; returned indices are positions in the
forest at each level. -/
def findPathF (k : NodeKey) : ElemList → Option (List Nat)
  | .nil => none
  | .cons c cs =>
    if matchKey k c then some [0]
    else
      match findPathE k c with
      | some p => some (0 :: p)
      | none =>
        (findPathF k cs).map (fun q =>
          match q with
          | j :: p => (j + 1) :: p
          | [] => [])
end

/-- Element at a (non-empty) path of child indices below the root. -/
def getPath : Elem → List Nat → Option Elem
  | _, [] => none
  | e, [i] => e.childList[i]?
  | e, i :: j :: p =>
    match e.childList[i]? with
    | some c => getPath c (j :: p)
    | none => none

/-- `new_label(root_tree, admix)`: next synthetic label.  Counts, over all
proper descendants, either admixture nodes (halved, since each admixture
label occurs on two ingress elements) or non-admixture internal nodes,
and returns `a<num+1>` resp. `n<num+1>`. -/
def new_label (root_tree : Elem) (admix : Bool) : String :=
  let all_nodes := descendants root_tree
  let num :=
    if admix then
      (all_nodes.countP (fun n => n.getAttr "admix" == some "1")) / 2
    else
      all_nodes.countP (fun n =>
        n.getAttr "internal" == some "1" && !(n.getAttr "admix" == some "1"))
  (if admix then "a" else "n") ++ toString (num + 1)

/-- Surgery for the non-append branch of `insert_node`, applied along the
path to the target: at the parent of the target (last path step), if the
target has a sibling, replace the target by a fresh internal element
`label` holding the target and the new node; otherwise append the new
node to the parent.  Mirrors lines 205–223 of the source. -/
def surgeryNA (label : String) (newNode : Elem) : Elem → List Nat → Option Elem
  | _, [] => none
  | .mk t a cs, [i] =>
    match cs.toList[i]? with
    | some c =>
      some (.mk t a (ofList
        (if cs.toList.length > 1 then
          (cs.toList.eraseIdx i) ++ [mkE label [("internal", "1")] [c, newNode]]
         else
          cs.toList ++ [newNode])))
    | none => none
  | .mk t a cs, i :: j :: p =>
    match cs.toList[i]? with
    | some c =>
      (surgeryNA label newNode c (j :: p)).map (fun c' => .mk t a (ofList (cs.toList.set i c')))
    | none => none

/-- Surgery for the append branch of `insert_node`: append the new node
directly to the children of the target element at the given path. -/
def surgeryAp (newNode : Elem) : Elem → List Nat → Option Elem
  | .mk t a cs, [] => some (.mk t a (ofList (cs.toList ++ [newNode])))
  | .mk t a cs, i :: p =>
    match cs.toList[i]? with
    | some c =>
      (surgeryAp newNode c p).map (fun c' => .mk t a (ofList (cs.toList.set i c')))
    | none => none

/-- `insert_node(new_tree, target_node, new_tag, attrs, append)`.
Re-locates the target by tag (and `side` attribute when present), then
either appends the new node to the target (`append`) or attaches it as a
sibling of the target, synthesizing an intermediate internal node with a
fresh `n<k>` label when the target already has a sibling.  Returns the
updated tree and the new node; `none` models Python's crash when the
XPath lookup returns `None`.  (The intermediate label is computed here
eagerly from the still-unmodified tree, which agrees with the lazy
`self.new_label(new_tree)` call in the source because the tree is not
mutated before that call.) -/
def insert_node (tree : Elem) (target : NodeKey) (new_tag : String)
    (attrs : List (String × String)) (append : Bool) : Option (Elem × Elem) :=
  match findPathE target tree with
  | none => none
  | some path =>
    let newNode : Elem := mkE new_tag attrs []
    if append then
      (surgeryAp newNode tree path).map (fun tr => (tr, newNode))
    else
      let label := new_label tree false
      (surgeryNA label newNode tree path).map (fun tr => (tr, newNode))

/-- Lexicographic `<` on character lists by code point; Python's `<` on
(byte) strings for the ASCII labels this program uses. -/
def charListLt : List Char → List Char → Bool
  | [], [] => false
  | [], _ :: _ => true
  | _ :: _, [] => false
  | c :: cs, d :: ds =>
    decide (c.toNat < d.toNat) || (c == d && charListLt cs ds)

/-- Python string comparison `a < b`. -/
def strLt (a b : String) : Bool := charListLt a.data b.data

/-- One admixture candidate for the target pair, lines 100–118 of
`recurse_tree`: generate the admixture label from the (cloned) tree,
insert one ingress node beside each target (`side` `l` and `r`), and
append the new tag under the ingress node of the lexicographically
smaller target tag. -/
def admix_insert (tree : Elem) (k1 k2 : NodeKey) (new_tag : String) : Option Elem :=
  let admix_label := new_label tree true
  match insert_node tree k1 admix_label
      [("internal", "1"), ("admix", "1"), ("side", "l")] false with
  | none => none
  | some (t1, n1) =>
    match insert_node t1 k2 admix_label
        [("internal", "1"), ("admix", "1"), ("side", "r")] false with
    | none => none
    | some (t2, n2) =>
      let admix_node := if strLt k1.tag k2.tag then n1 else n2
      match insert_node t2 (keyOf admix_node) new_tag [] true with
      | none => none
      | some (t3, _) => some t3

/-- Whether `needle` is a prefix of the character list. -/
def startsWithChars : List Char → List Char → Bool
  | [], _ => true
  | _ :: _, [] => false
  | n :: ns, h :: hs => n == h && startsWithChars ns hs

/-- Whether `needle` occurs as a contiguous run in the character list. -/
def containsChars (needle : List Char) : List Char → Bool
  | [] => startsWithChars needle []
  | c :: cs => startsWithChars needle (c :: cs) || containsChars needle cs

/-- Python `needle in hay` on strings. -/
def strContains (hay needle : String) : Bool := containsChars needle.data hay.data

/-- Helper for `pySplitWs`: `cur` is the reversed current word. -/
def splitWsAux : List Char → List Char → List String
  | cur, [] => if cur.isEmpty then [] else [String.mk cur.reverse]
  | cur, c :: cs =>
    if c.isWhitespace then
      if cur.isEmpty then splitWsAux [] cs
      else String.mk cur.reverse :: splitWsAux [] cs
    else splitWsAux (c :: cur) cs

/-- Python `line.split()`: split on whitespace runs, no empty fields. -/
def pySplitWs (s : String) : List String := splitWsAux [] s.data

/-- Python `len(line.strip()) > 0`: the line has a non-whitespace char. -/
def stripNonEmpty (s : String) : Bool := s.data.any (fun c => !c.isWhitespace)

/-- Loop of `extract_outliers` over the log lines, carrying the
`outliers` accumulator, the `read_log` flag and the `worst_fstat`
token list. -/
def extract_outliers_go : List String → List (List String) → Bool → List String →
    List (List String) × List String
  | [], outliers, _, worst_fstat => (outliers, worst_fstat)
  | line :: rest, outliers, read_log, worst_fstat =>
    if strContains line "outliers" then
      extract_outliers_go rest outliers true worst_fstat
    else if strContains line "worst f-stat" then
      extract_outliers_go rest outliers false (pySplitWs line)
    else if read_log && stripNonEmpty line then
      extract_outliers_go rest (outliers ++ [pySplitWs line]) read_log worst_fstat
    else
      extract_outliers_go rest outliers read_log worst_fstat

/-- `extract_outliers(log)`: collect the whitespace-tokenized lines
between an `outliers` marker line and a `worst f-stat` marker line, and
the tokens of the `worst f-stat` line itself. -/
def extract_outliers (log : List String) : List (List String) × List String :=
  extract_outliers_go log [] false []

/-- Python tuple comparison `(tag, rendering) <= (tag, rendering)`. -/
def pairLE (p q : String × String) : Bool :=
  strLt p.1 q.1 || (p.1 == q.1 && (strLt p.2 q.2 || p.2 == q.2))

/-- Insert into a `pairLE`-sorted list. -/
def insertSorted (x : String × String) : List (String × String) → List (String × String)
  | [] => [x]
  | y :: ys => if pairLE x y then x :: y :: ys else y :: insertSorted x ys

/-- `children.sort()`: ascending sort of (tag, rendering) tuples.  The
tuple order is total, so any sort produces Python's result. -/
def sortPairs : List (String × String) → List (String × String)
  | [] => []
  | x :: xs => insertSorted x (sortPairs xs)

/-- `re.match('n[0-9]+|R', tag)` is truthy: the tag starts with `R`, or
starts with `n` followed by at least one digit.  (`re.match` anchors at
the start of the string only, so nothing constrains the rest of the
tag.) -/
def tag_suppressed (tag : String) : Bool :=
  match tag.data with
  | c :: rest =>
    c == 'R' || (c == 'n' && (match rest with | d :: _ => d.isDigit | [] => false))
  | [] => false

/-- `','.join(...)`. -/
def joinComma : List String → String
  | [] => ""
  | [s] => s
  | s :: t :: rest => s ++ "," ++ joinComma (t :: rest)

mutual
/-- `export_newick_tree(parent_node)`: leaves render as their tag; an
internal node renders its children (individually rendered, sorted as
(tag, rendering) tuples) in parentheses, followed by its own tag unless
`re.match('n[0-9]+|R', tag)` suppresses it. -/
def export_newick_tree : Elem → String
  | .mk tag _ cs =>
    match cs with
    | .nil => tag
    | .cons c rest =>
      let children := sortPairs (exportChildren (.cons c rest))
      let tag_name := if tag_suppressed tag then "" else tag
      "(" ++ joinComma (children.map Prod.snd) ++ ")" ++ tag_name

/-- The (tag, rendering) pairs of a forest, in document order. -/
def exportChildren : ElemList → List (String × String)
  | .nil => []
  | .cons c cs => (c.tag, export_newick_tree c) :: exportChildren cs
end

/-- The module-level tunables of the script and its two external
collaborators, gathered as one value: `self.outgroup` (fixed at
construction), `MAX_OUTLIER_THRESHOLD` (0 in the source),
`EXHAUSTIVE_SEARCH` (False in the source), the outlier records the
oracle (`qpGraph` run + cached log + `extract_outliers`) yields for a
tree, and the graph name (`hash_text` of the ladderized Newick string;
sha1 and `Bio.Phylo` are external, so the whole composite is a
parameter). -/
structure Config where
  outgroup : String
  max_outlier_threshold : Nat
  exhaustive_search : Bool
  oracle : Elem → List (List String)
  graph_name : Elem → String

/-- The mutable object state of `PermuteQpgraph` threaded through the
search: `self.problem_nodes`, `self.tested_graphs`, `self.solutions`.
Python sets are modelled as duplicate-free lists via `addSet`. -/
structure SState where
  problem_nodes : List String
  tested_graphs : List String
  solutions : List String
deriving DecidableEq

/-- `set.add`. -/
def addSet (s : List String) (x : String) : List String :=
  if x ∈ s then s else s ++ [x]

/-- Outcome of a call: normal return, a raised `NodeUnplaceable`, a
Python crash (attribute error on a failed XPath lookup / index error),
or exhaustion of the model's fuel.  Python state mutations survive a
raised exception, so every outcome carries the final state alongside. -/
inductive Res (α : Type) where
  | ok (a : α)
  | unplaceable (msg : String)
  | crash
  | fuelOut
deriving DecidableEq

/-- `run_qpgraph((new_tree, depth))`, minus the external effects (file
cache, qpGraph invocation, PDF, prints): the tree, its outliers, and its
graph name. -/
def run_qpgraph (cfg : Config) (tree : Elem) : Elem × List (List String) × String :=
  (tree, cfg.oracle tree, cfg.graph_name tree)

/-- `test_trees(new_trees, depth)`: evaluate each tree; the pool map and
the sequential loop produce the same ordered result list. -/
def test_trees (cfg : Config) (new_trees : List Elem) :
    List (Elem × List (List String) × String) :=
  new_trees.map (run_qpgraph cfg)

/-- Map a fallible function over a list, failing if any element fails. -/
def optionMapM {α β : Type} (f : α → Option β) : List α → Option (List β)
  | [] => some []
  | x :: xs =>
    match f x with
    | none => none
    | some y => (optionMapM f xs).map (y :: ·)

/-- Lines 74–79 of `recurse_tree`: one regular-insertion candidate per
target node (each insertion into a fresh deep copy of the current tree). -/
def buildRegular (root_tree : Elem) (target_nodes : List Elem) (new_tag : String) :
    Option (List Elem) :=
  optionMapM (fun tn => (insert_node root_tree (keyOf tn) new_tag [] false).map Prod.fst)
    target_nodes

/-- `itertools.combinations(l, 2)` in order. -/
def pairsComb {α : Type} : List α → List (α × α)
  | [] => []
  | x :: xs => xs.map (fun y => (x, y)) ++ pairsComb xs

/-- Lines 90–118 of `recurse_tree`: one admixture candidate per pair of
targets with distinct tags (equal-tag pairs are skipped). -/
def buildAdmix (root_tree : Elem) (target_nodes : List Elem) (new_tag : String) :
    Option (List Elem) :=
  optionMapM (fun pr => admix_insert root_tree (keyOf pr.1) (keyOf pr.2) new_tag)
    ((pairsComb target_nodes).filter (fun pr => !(pr.1.tag == pr.2.tag)))

/-- The loop of `check_results(results, remaining, depth)` with the
method call `self.recurse_tree` abstracted as `recurse`: record every
result's graph name in the tested set; for a result within the outlier
threshold, recurse on the remaining queue (propagating any exception) or
record a solution when the queue is empty, and set the placed flag. -/
def check_loop (recurse : Elem → String → List String → Nat → SState → SState × Res Unit)
    (threshold : Nat) (remaining : List String) (depth : Nat) :
    List (Elem × List (List String) × String) → Bool → SState → SState × Res Bool
  | [], placed_node, st => (st, .ok placed_node)
  | (new_tree, outliers, graph_name) :: rest, placed_node, st =>
    let st1 : SState := { st with tested_graphs := addSet st.tested_graphs graph_name }
    if outliers.length ≤ threshold then
      match remaining with
      | r0 :: rrest =>
        match recurse new_tree r0 rrest (depth + 1) st1 with
        | (st2, .ok _) => check_loop recurse threshold remaining depth rest true st2
        | (st2, .unplaceable m) => (st2, .unplaceable m)
        | (st2, .crash) => (st2, .crash)
        | (st2, .fuelOut) => (st2, .fuelOut)
      | [] =>
        let st2 : SState := { st1 with solutions := addSet st1.solutions graph_name }
        check_loop recurse threshold remaining depth rest true st2
    else
      check_loop recurse threshold remaining depth rest placed_node st1

/-- `recurse_tree(root_tree, new_tag, remaining, depth)`, by fuel (the
source recursion has no structural measure; fuel bounds the recursion
depth and every recursive call passes `fuel`):
regular-insertion pass, then admixture pass if nothing was placed, then
defer (append the tag to the problem list and the back of the queue and
retry at the same depth) or raise `NodeUnplaceable`.  The source message
quotes the node tag; the quotes are omitted here. -/
def recurse_tree (cfg : Config) :
    Nat → Elem → String → List String → Nat → SState → SState × Res Unit
  | 0, _, _, _, _, st => (st, .fuelOut)
  | fuel + 1, root_tree, new_tag, remaining, depth, st =>
    let target_nodes := (descendants root_tree).filter (fun node => !(node.tag == cfg.outgroup))
    match buildRegular root_tree target_nodes new_tag with
    | none => (st, .crash)
    | some new_trees =>
      let results := test_trees cfg new_trees
      match check_loop (fun t tg rm d s => recurse_tree cfg fuel t tg rm d s)
          cfg.max_outlier_threshold remaining depth results false st with
      | (st1, .ok node_placed) =>
        if node_placed then (st1, .ok ()) else
          match buildAdmix root_tree target_nodes new_tag with
          | none => (st1, .crash)
          | some admix_trees =>
            let results2 := test_trees cfg admix_trees
            match check_loop (fun t tg rm d s => recurse_tree cfg fuel t tg rm d s)
                cfg.max_outlier_threshold remaining depth results2 false st1 with
            | (st2, .ok node_placed2) =>
              if node_placed2 then (st2, .ok ()) else
                if !(st2.problem_nodes.contains new_tag) && !remaining.isEmpty
                    && !cfg.exhaustive_search then
                  let st3 : SState :=
                    { st2 with problem_nodes := st2.problem_nodes ++ [new_tag] }
                  match remaining ++ [new_tag] with
                  | r0 :: rrest => recurse_tree cfg fuel root_tree r0 rrest depth st3
                  | [] => (st3, .crash)
                else
                  (st2, .unplaceable ("ERROR: Cannot place node " ++ new_tag ++ " in the graph."))
            | (st2, .unplaceable m) => (st2, .unplaceable m)
            | (st2, .crash) => (st2, .crash)
            | (st2, .fuelOut) => (st2, .fuelOut)
      | (st1, .unplaceable m) => (st1, .unplaceable m)
      | (st1, .crash) => (st1, .crash)
      | (st1, .fuelOut) => (st1, .fuelOut)

/-- `check_results(results, remaining, depth)` proper: the loop with the
real recursion (at the given fuel) plugged in. -/
def check_results (cfg : Config) (fuel : Nat)
    (results : List (Elem × List (List String) × String)) (remaining : List String)
    (depth : Nat) (st : SState) : SState × Res Bool :=
  check_loop (fun t tg rm d s => recurse_tree cfg fuel t tg rm d s)
    cfg.max_outlier_threshold remaining depth results false st

/-- `find_graph()`: build the two-leaf starting tree `R(outgroup,
nodes[0])` and recurse on the rest.  With fewer than two nodes the
source raises `IndexError` (crash). -/
def find_graph (cfg : Config) (fuel : Nat) (nodes : List String) (st : SState) :
    SState × Res Unit :=
  match nodes with
  | n0 :: n1 :: rest =>
    let root_tree := mkE "R" [] [mkE cfg.outgroup [] [], mkE n0 [] []]
    recurse_tree cfg fuel root_tree n1 rest 0 st
  | _ => (st, .crash)

/-- Lines 51–52: `PermuteQpgraph.__init__` removes the first occurrence
of the outgroup from the caller's node list, in place. -/
def init_nodes (nodes : List String) (outgroup : String) : List String :=
  if outgroup ∈ nodes then nodes.erase outgroup else nodes

/-- The object state after `__init__`. -/
def init_state : SState := ⟨[], [], []⟩

/-- Line 472: the driver's permutation work list,
`itertools.permutations(nodes, len(nodes))`.  Because `__init__` mutated
the caller's list in place, this is built from the stripped list.
`List.permutations` enumerates the same permutations in a different
order; no claim depends on the enumeration order. -/
def all_nodes_perms (nodes : List String) (outgroup : String) : List (List String) :=
  (init_nodes nodes outgroup).permutations

/-- Whether the topology contains an element with the given tag. -/
def hasTag (t : Elem) (tag : String) : Bool := (preorder t).any (fun e => e.tag == tag)

/-- Config with the source constants (threshold 0, non-exhaustive), an
oracle reporting zero outliers for every tree, and the canonical string
standing in for the graph-name hash. -/
def cfg_pass : Config :=
  ⟨"Out", 0, false, fun _ => [], export_newick_tree⟩

/-- Config whose oracle reports one outlier for every tree. -/
def cfg_fail : Config :=
  ⟨"Out", 0, false, fun _ => [["o"]], export_newick_tree⟩

/-- Config whose oracle fails any tree that contains `B` without `C`,
and any tree that contains `X`; all other trees pass. -/
def cfg_cross : Config :=
  ⟨"Out", 0, false,
    fun t => if (hasTag t "B" && !hasTag t "C") || hasTag t "X" then [["o"]] else [],
    export_newick_tree⟩

/-- C7: a qpGraph log that lacks the `outliers` marker produces exactly
the same `extract_outliers` value as a well-formed zero-outlier log—the
missing marker is not surfaced at all—and a log lacking both markers
yields an empty `worst_fstat` list (on which line 296 of the source then
raises `IndexError` via `worst_fstat[-1]`, aborting the whole run, not
just that evaluation). -/
theorem claim7_markerless_log_not_surfaced :
    extract_outliers ["worst f-stat : 1.234 Z"] =
        extract_outliers ["outliers:", "worst f-stat : 1.234 Z"] ∧
      extract_outliers ["worst f-stat : 1.234 Z"] = ([], ["worst", "f-stat", ":", "1.234", "Z"]) ∧
      extract_outliers ["no markers at all"] = ([], []) := by
  decide

/-- C9: a duplicate population label is inserted silently.  `insert_node`
happily adds a node whose tag already exists (yielding a topology with
two `A` elements), and a whole `find_graph` run over the duplicated node
list `["A", "A"]` returns normally and even records a solution; no
label-collision error exists anywhere in the source. -/
theorem claim9_duplicate_label_inserted_silently :
    ((insert_node (mkE "R" [] [mkE "Out" [] [], mkE "A" [] []]) ⟨"A", none⟩ "A" [] false).map
        (fun pr => (preorder pr.1).countP (fun e => e.tag == "A"))) = some 2 ∧
      (find_graph cfg_pass 3 ["A", "A"] init_state).2 = .ok () ∧
      (find_graph cfg_pass 3 ["A", "A"] init_state).1.solutions ≠ [] := by
  decide

/-- C10 (amended): when the outgroup occurs at most once in the input
node list, the stripped list used as the first insertion order and every
permutation in the driver's work list are outgroup-free. -/
theorem claim10_outgroup_stripped (nodes : List String) (outgroup : String)
    (h : nodes.count outgroup ≤ 1) :
    outgroup ∉ init_nodes nodes outgroup ∧
      ∀ p ∈ all_nodes_perms nodes outgroup, outgroup ∉ p := by
  have hmain : outgroup ∉ init_nodes nodes outgroup := by
    unfold init_nodes
    split
    · intro hmem
      have hc := List.count_erase_self outgroup nodes
      have hp := List.count_pos_iff.mpr hmem
      omega
    · next hnin => exact hnin
  refine ⟨hmain, fun p hp hmem => ?_⟩
  rw [all_nodes_perms, List.mem_permutations] at hp
  exact hmain (hp.mem_iff.mp hmem)

/-- Witness for C10's amended theorem at a concrete input. -/
theorem claim10_outgroup_stripped_witness :
    (["WAM", "A", "B"] : List String).count "WAM" ≤ 1 ∧
      ("WAM" ∉ init_nodes ["WAM", "A", "B"] "WAM" ∧
        ∀ p ∈ all_nodes_perms ["WAM", "A", "B"] "WAM", "WAM" ∉ p) :=
  ⟨by decide, claim10_outgroup_stripped ["WAM", "A", "B"] "WAM" (by decide)⟩

/-- C10 counterexample: `remove` strips only the FIRST occurrence, so
with the outgroup listed twice the insertion order and the permutation
work list still contain the outgroup, against the claim's
"never contain the outgroup". -/
theorem claim10_counterexample :
    "Out" ∈ init_nodes ["Out", "Out"] "Out" ∧
      ¬ (∀ p ∈ all_nodes_perms ["Out", "Out"] "Out", "Out" ∉ p) := by
  decide

/-- The suppression predicate in the spec's words: the label is exactly
`n` followed by one or more digits (full match), or is exactly the root
label `R`. -/
def spec_nDigits (tag : String) : Bool :=
  match tag.data with
  | c :: rest => c == 'n' && !rest.isEmpty && rest.all Char.isDigit
  | [] => false

/-- C4 counterexample: the source suppresses the label of any internal
node whose tag merely STARTS with `R` (or with `n` + digit), because
`re.match` is anchored only at the start.  The internal label `Rome` is
neither `n<digits>` nor the root label `R`, yet its suffix is dropped
from the rendered string, so suppression does not happen "exactly when"
the claim says. -/
theorem claim4_counterexample :
    export_newick_tree (mkE "Rome" [] [mkE "A" [] [], mkE "B" [] []]) = "(A,B)" ∧
      spec_nDigits "Rome" = false ∧ "Rome" ≠ "R" := by
  decide

theorem exportChildren_ofList (l : List Elem) :
    exportChildren (ofList l) = l.map (fun c => (c.tag, export_newick_tree c)) := by
  induction l with
  | nil => rfl
  | cons c cs ih => rw [ofList, exportChildren, ih]; rfl

theorem tag_suppressed_iff (tag : String) :
    tag_suppressed tag = true ↔
      (tag.data.head? = some 'R' ∨
        (tag.data.head? = some 'n' ∧
          ((tag.data.drop 1).head?.elim false Char.isDigit) = true)) := by
  unfold tag_suppressed
  cases hd : tag.data with
  | nil => simp
  | cons c rest =>
    cases rest with
    | nil => simp [Option.elim]
    | cons d rest2 => simp [Option.elim]

/-- C4 (amended): in the canonical string, an internal node's label is
suppressed from the rendered suffix exactly when the label BEGINS with
`R` or BEGINS with `n` followed by a digit (Python `re.match` semantics,
unanchored at the end); every other label is shown. -/
theorem claim4_label_suppression (tag : String) (attrs : List (String × String))
    (children : List Elem) (h : children ≠ []) :
    export_newick_tree (mkE tag attrs children) =
      "(" ++
        joinComma ((sortPairs (children.map (fun c => (c.tag, export_newick_tree c)))).map
          Prod.snd) ++ ")" ++
        (if tag.data.head? = some 'R' ∨
            (tag.data.head? = some 'n' ∧
              ((tag.data.drop 1).head?.elim false Char.isDigit) = true)
         then "" else tag) := by
  cases children with
  | nil => exact absurd rfl h
  | cons c cs =>
    rw [mkE, ofList, export_newick_tree]
    rw [show ElemList.cons c (ofList cs) = ofList (c :: cs) from rfl, exportChildren_ofList]
    by_cases hsup : tag_suppressed tag = true
    · rw [if_pos ((tag_suppressed_iff tag).mp hsup), hsup]; simp
    · rw [if_neg (fun hp => hsup ((tag_suppressed_iff tag).mpr hp))]
      rw [show tag_suppressed tag = false from by revert hsup; cases tag_suppressed tag <;> simp]
      simp

/-- Witness for C4's amended theorem: an admixture label `a1` is shown. -/
theorem claim4_label_suppression_witness :
    (([mkE "A" [] [], mkE "B" [] []] : List Elem) ≠ []) ∧
      export_newick_tree (mkE "a1" [] [mkE "A" [] [], mkE "B" [] []]) =
        "(" ++
          joinComma ((sortPairs (([mkE "A" [] [], mkE "B" [] []] : List Elem).map
            (fun c => (c.tag, export_newick_tree c)))).map Prod.snd) ++ ")" ++
          (if ("a1" : String).data.head? = some 'R' ∨
              (("a1" : String).data.head? = some 'n' ∧
                ((("a1" : String).data.drop 1).head?.elim false Char.isDigit) = true)
           then "" else "a1") :=
  ⟨by decide, claim4_label_suppression "a1" [] [mkE "A" [] [], mkE "B" [] []] (by decide)⟩

theorem mem_addSet (s : List String) (x a : String) :
    a ∈ addSet s x ↔ a ∈ s ∨ a = x := by
  unfold addSet
  split
  · next hx =>
    constructor
    · exact fun h => Or.inl h
    · rintro (h | rfl)
      · exact h
      · exact hx
  · simp [List.mem_append]

/-- C1: pruning correctness of `check_results`.  First part: the run of
the batch loop depends on the recursion callback only at candidates
whose outlier count is within the threshold — two callbacks that agree
on all passing candidates yield identical runs, so only candidates with
`outlierCount ≤ threshold` are ever passed to recursion.  Second part:
when the remaining queue is empty (the case in which candidates are
recorded as solutions instead of recursed into), the solutions recorded
are exactly the graph names of the candidates within the threshold. -/
theorem claim1_pruning (threshold : Nat) :
    (∀ (f g : Elem → String → List String → Nat → SState → SState × Res Unit)
        (results : List (Elem × List (List String) × String)) (remaining : List String)
        (depth : Nat) (placed : Bool) (st : SState),
        (∀ r ∈ results, r.2.1.length ≤ threshold →
            ∀ tg rm d s, f r.1 tg rm d s = g r.1 tg rm d s) →
        check_loop f threshold remaining depth results placed st =
          check_loop g threshold remaining depth results placed st) ∧
    (∀ (f : Elem → String → List String → Nat → SState → SState × Res Unit)
        (results : List (Elem × List (List String) × String)) (depth : Nat)
        (placed : Bool) (st : SState) (name : String),
        name ∈ (check_loop f threshold [] depth results placed st).1.solutions ↔
          (name ∈ st.solutions ∨ ∃ r ∈ results, r.2.2 = name ∧ r.2.1.length ≤ threshold)) := by
  constructor
  · intro f g results remaining depth
    induction results with
    | nil => intro placed st h; rfl
    | cons r rest ih =>
      intro placed st h
      obtain ⟨tr, outl, nm⟩ := r
      simp only [check_loop]
      by_cases hlen : outl.length ≤ threshold
      · simp only [if_pos hlen]
        cases remaining with
        | nil =>
          exact ih true
            { st with tested_graphs := addSet st.tested_graphs nm,
                      solutions := addSet st.solutions nm }
            (fun r hr => h r (List.mem_cons_of_mem _ hr))
        | cons r0 rrest =>
          have hfg : ∀ tg rm d s, f tr tg rm d s = g tr tg rm d s :=
            h (tr, outl, nm) (List.mem_cons_self _ _) hlen
          simp only [hfg]
          cases hg : g tr r0 rrest (depth + 1)
              { st with tested_graphs := addSet st.tested_graphs nm } with
          | mk st2 r2 =>
            cases r2 with
            | ok a => exact ih true st2 (fun r hr => h r (List.mem_cons_of_mem _ hr))
            | unplaceable m => rfl
            | crash => rfl
            | fuelOut => rfl
      · simp only [if_neg hlen]
        exact ih placed _ (fun r hr => h r (List.mem_cons_of_mem _ hr))
  · intro f results depth
    induction results with
    | nil => intro placed st name; simp [check_loop]
    | cons r rest ih =>
      intro placed st name
      obtain ⟨tr, outl, nm⟩ := r
      simp only [check_loop]
      by_cases hlen : outl.length ≤ threshold
      · simp only [if_pos hlen]
        rw [ih]
        simp only [mem_addSet]
        constructor
        · rintro ((hsol | rfl) | ⟨r, hr, hnm, hlr⟩)
          · exact Or.inl hsol
          · exact Or.inr ⟨(tr, outl, name), List.mem_cons_self _ _, rfl, hlen⟩
          · exact Or.inr ⟨r, List.mem_cons_of_mem _ hr, hnm, hlr⟩
        · rintro (hsol | ⟨r, hr, hnm, hlr⟩)
          · exact Or.inl (Or.inl hsol)
          · rcases List.mem_cons.mp hr with rfl | hr2
            · exact Or.inl (Or.inr hnm.symm)
            · exact Or.inr ⟨r, hr2, hnm, hlr⟩
      · simp only [if_neg hlen]
        rw [ih]
        constructor
        · rintro (hsol | ⟨r, hr, hnm, hlr⟩)
          · exact Or.inl hsol
          · exact Or.inr ⟨r, List.mem_cons_of_mem _ hr, hnm, hlr⟩
        · rintro (hsol | ⟨r, hr, hnm, hlr⟩)
          · exact Or.inl hsol
          · rcases List.mem_cons.mp hr with rfl | hr2
            · exact absurd hlr hlen
            · exact Or.inr ⟨r, hr2, hnm, hlr⟩

/-- Witness for C1 at concrete inputs: with one over-threshold candidate
the agreement hypothesis is vacuous and two callbacks that differ
everywhere still give identical runs (neither is invoked), and with one
passing candidate and an empty queue the solution set is characterized. -/
theorem claim1_pruning_witness :
    check_loop (fun _ _ _ _ s => (s, Res.crash)) 0 ["Y"] 0
        [(mkE "R" [] [], [["o"]], "g1")] false init_state =
      check_loop (fun _ _ _ _ s => (s, Res.fuelOut)) 0 ["Y"] 0
        [(mkE "R" [] [], [["o"]], "g1")] false init_state ∧
    ("g2" ∈ (check_loop (fun _ _ _ _ s => (s, Res.crash)) 0 [] 0
        [(mkE "R" [] [], [], "g2")] false init_state).1.solutions ↔
      ("g2" ∈ init_state.solutions ∨
        ∃ r ∈ [((mkE "R" [] [], [], "g2") : Elem × List (List String) × String)],
          r.2.2 = "g2" ∧ r.2.1.length ≤ 0)) :=
  ⟨(claim1_pruning 0).1 (fun _ _ _ _ s => (s, Res.crash)) (fun _ _ _ _ s => (s, Res.fuelOut))
      [(mkE "R" [] [], [["o"]], "g1")] ["Y"] 0 false init_state
      (by
        intro r hr hlen
        rcases List.mem_cons.mp hr with rfl | h2
        · simp at hlen
        · simp at h2),
    (claim1_pruning 0).2 (fun _ _ _ _ s => (s, Res.crash))
      [(mkE "R" [] [], [], "g2")] 0 false init_state "g2"⟩

theorem subset_addSet (s : List String) (x : String) : s ⊆ addSet s x := by
  unfold addSet
  split
  · exact List.Subset.refl _
  · exact List.subset_append_left _ _

/-- State growth: the problem list and both hash sets only accumulate. -/
def SLe (s s' : SState) : Prop :=
  s.problem_nodes ⊆ s'.problem_nodes ∧ s.tested_graphs ⊆ s'.tested_graphs ∧
    s.solutions ⊆ s'.solutions

theorem SLe_refl (s : SState) : SLe s s :=
  ⟨List.Subset.refl _, List.Subset.refl _, List.Subset.refl _⟩

theorem SLe_trans {a b c : SState} (h1 : SLe a b) (h2 : SLe b c) : SLe a c :=
  ⟨h1.1.trans h2.1, h1.2.1.trans h2.2.1, h1.2.2.trans h2.2.2⟩

theorem check_loop_mono (f : Elem → String → List String → Nat → SState → SState × Res Unit)
    (hf : ∀ t tg rm d s, SLe s (f t tg rm d s).1)
    (threshold : Nat) (remaining : List String) (depth : Nat) :
    ∀ (results : List (Elem × List (List String) × String)) (placed : Bool) (st : SState),
      SLe st (check_loop f threshold remaining depth results placed st).1 := by
  intro results
  induction results with
  | nil => intro placed st; exact SLe_refl st
  | cons r rest ih =>
    intro placed st
    obtain ⟨tr, outl, nm⟩ := r
    have h1 : SLe st { st with tested_graphs := addSet st.tested_graphs nm } :=
      ⟨List.Subset.refl _, subset_addSet _ _, List.Subset.refl _⟩
    simp only [check_loop]
    by_cases hlen : outl.length ≤ threshold
    · simp only [if_pos hlen]
      cases remaining with
      | nil =>
        refine SLe_trans (SLe_trans h1 ?_) (ih true _)
        exact ⟨List.Subset.refl _, List.Subset.refl _, subset_addSet _ _⟩
      | cons r0 rrest =>
        cases hg : f tr r0 rrest (depth + 1)
            { st with tested_graphs := addSet st.tested_graphs nm } with
        | mk st2 r2 =>
          have h2 : SLe st st2 := by
            have := hf tr r0 rrest (depth + 1)
              { st with tested_graphs := addSet st.tested_graphs nm }
            rw [hg] at this
            exact SLe_trans h1 this
          cases r2 with
          | ok a => simp only [hg]; exact SLe_trans h2 (ih true st2)
          | unplaceable m => simp only [hg]; exact h2
          | crash => simp only [hg]; exact h2
          | fuelOut => simp only [hg]; exact h2
    · simp only [if_neg hlen]
      exact SLe_trans h1 (ih placed _)

theorem recurse_tree_mono (cfg : Config) :
    ∀ (fuel : Nat) (root_tree : Elem) (new_tag : String) (remaining : List String)
      (depth : Nat) (st : SState),
      SLe st (recurse_tree cfg fuel root_tree new_tag remaining depth st).1 := by
  intro fuel
  induction fuel with
  | zero => intro root_tree new_tag remaining depth st; exact SLe_refl st
  | succ fuel ih =>
    intro root_tree new_tag remaining depth st
    simp only [recurse_tree]
    split
    · exact SLe_refl st
    · next new_trees hbr =>
      have hcl := check_loop_mono (fun t tg rm d s => recurse_tree cfg fuel t tg rm d s)
        (fun t tg rm d s => ih t tg rm d s) cfg.max_outlier_threshold remaining depth
      split
      · next st1 placed hc1 =>
        have h1 : SLe st st1 := by
          have := hcl (test_trees cfg new_trees) false st
          rw [hc1] at this
          exact this
        split
        · exact h1
        · split
          · exact h1
          · next admix_trees hba =>
            split
            · next st2 placed2 hc2 =>
              have h2 : SLe st st2 := by
                have := hcl (test_trees cfg admix_trees) false st1
                rw [hc2] at this
                exact SLe_trans h1 this
              split
              · exact h2
              · split
                · next hcond =>
                  have h3 : SLe st2
                      { st2 with problem_nodes := st2.problem_nodes ++ [new_tag] } :=
                    ⟨List.subset_append_left _ _, List.Subset.refl _, List.Subset.refl _⟩
                  split
                  · next r0 rrest heq =>
                    exact SLe_trans (SLe_trans h2 h3) (ih root_tree r0 rrest depth _)
                  · exact SLe_trans h2 h3
                · exact h2
            · next st2 m hc2 =>
              have := hcl (test_trees cfg admix_trees) false st1
              rw [hc2] at this
              exact SLe_trans h1 this
            · next st2 hc2 =>
              have := hcl (test_trees cfg admix_trees) false st1
              rw [hc2] at this
              exact SLe_trans h1 this
            · next st2 hc2 =>
              have := hcl (test_trees cfg admix_trees) false st1
              rw [hc2] at this
              exact SLe_trans h1 this
      · next st1 m hc1 =>
        have := hcl (test_trees cfg new_trees) false st
        rw [hc1] at this
        exact this
      · next st1 hc1 =>
        have := hcl (test_trees cfg new_trees) false st
        rw [hc1] at this
        exact this
      · next st1 hc1 =>
        have := hcl (test_trees cfg new_trees) false st
        rw [hc1] at this
        exact this

theorem find_graph_mono (cfg : Config) (fuel : Nat) (nodes : List String) (st : SState) :
    SLe st (find_graph cfg fuel nodes st).1 := by
  unfold find_graph
  split
  · exact recurse_tree_mono cfg fuel _ _ _ 0 st
  · exact SLe_refl st

theorem mem_addSet_self (s : List String) (x : String) : x ∈ addSet s x :=
  (mem_addSet s x x).mpr (Or.inr rfl)

theorem check_loop_ok_tested (f : Elem → String → List String → Nat → SState → SState × Res Unit)
    (hf : ∀ t tg rm d s, SLe s (f t tg rm d s).1)
    (threshold : Nat) (remaining : List String) (depth : Nat) :
    ∀ (results : List (Elem × List (List String) × String)) (placed : Bool) (st st' : SState)
      (b : Bool),
      check_loop f threshold remaining depth results placed st = (st', .ok b) →
      ∀ r ∈ results, r.2.2 ∈ st'.tested_graphs := by
  intro results
  induction results with
  | nil => intro placed st st' b h r hr; exact absurd hr (List.not_mem_nil r)
  | cons r0 rest ih =>
    intro placed st st' b h r hr
    obtain ⟨tr, outl, nm⟩ := r0
    simp only [check_loop] at h
    have hsub : ∀ st₁ : SState, nm ∈ st₁.tested_graphs →
        ∀ pl, check_loop f threshold remaining depth rest pl st₁ = (st', .ok b) →
        nm ∈ st'.tested_graphs := by
      intro st₁ hmem pl heq
      have hm := check_loop_mono f hf threshold remaining depth rest pl st₁
      rw [heq] at hm
      exact hm.2.1 hmem
    by_cases hlen : outl.length ≤ threshold
    · simp only [if_pos hlen] at h
      cases remaining with
      | nil =>
        rcases List.mem_cons.mp hr with rfl | hr2
        · exact hsub _ (mem_addSet_self _ _) true h
        · exact ih true _ st' b h r hr2
      | cons q0 qrest =>
        cases hg : f tr q0 qrest (depth + 1)
            { st with tested_graphs := addSet st.tested_graphs nm } with
        | mk st2 r2 =>
          simp only [hg] at h
          cases r2 with
          | ok a =>
            rcases List.mem_cons.mp hr with rfl | hr2
            · have hmem : nm ∈ st2.tested_graphs := by
                have := hf tr q0 qrest (depth + 1)
                  { st with tested_graphs := addSet st.tested_graphs nm }
                rw [hg] at this
                exact this.2.1 (mem_addSet_self _ _)
              exact hsub st2 hmem true h
            · exact ih true st2 st' b h r hr2
          | unplaceable m => simp at h
          | crash => simp at h
          | fuelOut => simp at h
    · simp only [if_neg hlen] at h
      rcases List.mem_cons.mp hr with rfl | hr2
      · exact hsub _ (mem_addSet_self _ _) placed h
      · exact ih placed _ st' b h r hr2

/-- C6 (amended): when `check_results` returns normally, the tested set
of the final state contains the graph name of every candidate of the
batch, whether or not it passed the outlier threshold, and the incoming
tested set is preserved; moreover the tested set accumulates across
restarts, because `find_graph` never resets it (it only grows the
state).  (When a nested `NodeUnplaceable` aborts the loop, candidates
after the abort point are not recorded — see the counterexample.) -/
theorem claim6_tested_set (cfg : Config) (fuel : Nat)
    (results : List (Elem × List (List String) × String)) (remaining : List String)
    (depth : Nat) (st st' : SState) (b : Bool)
    (h : check_results cfg fuel results remaining depth st = (st', .ok b)) :
    (∀ r ∈ results, r.2.2 ∈ st'.tested_graphs) ∧
      st.tested_graphs ⊆ st'.tested_graphs ∧
      (∀ (nodes : List String) (st0 : SState),
        st0.tested_graphs ⊆ (find_graph cfg fuel nodes st0).1.tested_graphs) := by
  unfold check_results at h
  refine ⟨check_loop_ok_tested _ (fun t tg rm d s => recurse_tree_mono cfg fuel t tg rm d s)
      cfg.max_outlier_threshold remaining depth results false st st' b h, ?_, ?_⟩
  · have hm := check_loop_mono (fun t tg rm d s => recurse_tree cfg fuel t tg rm d s)
      (fun t tg rm d s => recurse_tree_mono cfg fuel t tg rm d s)
      cfg.max_outlier_threshold remaining depth results false st
    rw [h] at hm
    exact hm.2.1
  · exact fun nodes st0 => (find_graph_mono cfg fuel nodes st0).2.1

/-- Witness for C6's amended theorem: a batch with one over-threshold
candidate returns normally and its name is recorded. -/
theorem claim6_tested_set_witness :
    check_results cfg_fail 1 [(mkE "R" [] [mkE "Out" [] [], mkE "A" [] []], [["o"]], "h1")]
        [] 0 init_state = (⟨[], ["h1"], []⟩, .ok false) ∧
      ((∀ r ∈ [((mkE "R" [] [mkE "Out" [] [], mkE "A" [] []], [["o"]], "h1") :
            Elem × List (List String) × String)],
          r.2.2 ∈ (⟨[], ["h1"], []⟩ : SState).tested_graphs) ∧
        init_state.tested_graphs ⊆ (⟨[], ["h1"], []⟩ : SState).tested_graphs ∧
        (∀ (nodes : List String) (st0 : SState),
          st0.tested_graphs ⊆ (find_graph cfg_fail 1 nodes st0).1.tested_graphs)) :=
  ⟨by decide,
    claim6_tested_set cfg_fail 1 [(mkE "R" [] [mkE "Out" [] [], mkE "A" [] []], [["o"]], "h1")]
      [] 0 init_state ⟨[], ["h1"], []⟩ false (by decide)⟩

/-- C6 counterexample: when a candidate passes and the nested recursion
raises `NodeUnplaceable`, `check_results` aborts mid-batch, so the
tested set does NOT receive the hash of every candidate evaluated in the
batch: here `g2` was evaluated (it is in the results list) but never
recorded. -/
theorem claim6_counterexample :
    (check_results cfg_fail 2
        [(mkE "R" [] [mkE "Out" [] [], mkE "A" [] []], [], "g1"),
         (mkE "R" [] [mkE "Out" [] [], mkE "A" [] []], [], "g2")] ["Y"] 0 init_state).2 =
      .unplaceable "ERROR: Cannot place node Y in the graph." ∧
    "g2" ∉ (check_results cfg_fail 2
        [(mkE "R" [] [mkE "Out" [] [], mkE "A" [] []], [], "g1"),
         (mkE "R" [] [mkE "Out" [] [], mkE "A" [] []], [], "g2")] ["Y"] 0
          init_state).1.tested_graphs := by
  decide

/-- C2 (amended): when neither the regular-insertion pass nor the
admixture pass places the new label (both `check_results` calls return
`false`), then: if the label is not yet in the problem-node list AS LEFT
BY THE PREVIOUS PASSES (the list is per-`PermuteQpgraph`-instance state,
persisting across search attempts, not per-attempt), the remaining queue
is non-empty and exhaustive mode is off, the label is appended to the
problem-node list and to the back of the queue and the search retries
with the new front of the queue at the same depth; otherwise
`NodeUnplaceable` is raised. -/
theorem claim2_backtrack (cfg : Config) (fuel : Nat) (root_tree : Elem) (new_tag : String)
    (remaining : List String) (depth : Nat) (st st1 st2 : SState)
    (new_trees admix_trees : List Elem)
    (hbr : buildRegular root_tree
        ((descendants root_tree).filter (fun node => !(node.tag == cfg.outgroup))) new_tag =
        some new_trees)
    (hc1 : check_results cfg fuel (test_trees cfg new_trees) remaining depth st =
        (st1, .ok false))
    (hba : buildAdmix root_tree
        ((descendants root_tree).filter (fun node => !(node.tag == cfg.outgroup))) new_tag =
        some admix_trees)
    (hc2 : check_results cfg fuel (test_trees cfg admix_trees) remaining depth st1 =
        (st2, .ok false)) :
    (∀ r0 rrest, remaining = r0 :: rrest →
        st2.problem_nodes.contains new_tag = false → cfg.exhaustive_search = false →
        recurse_tree cfg (fuel + 1) root_tree new_tag remaining depth st =
          recurse_tree cfg fuel root_tree r0 (rrest ++ [new_tag]) depth
            { st2 with problem_nodes := st2.problem_nodes ++ [new_tag] }) ∧
    ((st2.problem_nodes.contains new_tag = true ∨ remaining = [] ∨
        cfg.exhaustive_search = true) →
      recurse_tree cfg (fuel + 1) root_tree new_tag remaining depth st =
        (st2, .unplaceable ("ERROR: Cannot place node " ++ new_tag ++ " in the graph."))) := by
  unfold check_results at hc1 hc2
  have hmain : recurse_tree cfg (fuel + 1) root_tree new_tag remaining depth st =
      (if !(st2.problem_nodes.contains new_tag) && !remaining.isEmpty
          && !cfg.exhaustive_search then
        match remaining ++ [new_tag] with
        | r0 :: rrest =>
          recurse_tree cfg fuel root_tree r0 rrest depth
            { st2 with problem_nodes := st2.problem_nodes ++ [new_tag] }
        | [] => ({ st2 with problem_nodes := st2.problem_nodes ++ [new_tag] }, .crash)
       else
        (st2, .unplaceable ("ERROR: Cannot place node " ++ new_tag ++ " in the graph."))) := by
    simp only [recurse_tree, hbr, hc1, hba, hc2]
    simp
  constructor
  · intro r0 rrest hrem hcont hex
    subst hrem
    have hcond : (!(st2.problem_nodes.contains new_tag) && !(r0 :: rrest).isEmpty
        && !cfg.exhaustive_search) = true := by
      rw [hcont, hex]; rfl
    rw [hmain, if_pos hcond]
    simp only [List.cons_append]
  · intro hdisj
    rw [hmain]
    rcases hdisj with hcont | hrem | hex
    · rw [if_neg (by rw [hcont]; simp)]
    · subst hrem
      rw [if_neg (by simp)]
    · rw [if_neg (by rw [hex]; simp)]

/-- Witness for C2's amended theorem: with an all-failing oracle, the
node `B` is deferred — pushed to the back of the queue, recorded as a
problem node — and the search retries with `C` at the same depth. -/
theorem claim2_backtrack_witness :
    recurse_tree cfg_fail 2 (mkE "R" [] [mkE "Out" [] [], mkE "A" [] []]) "B" ["C"] 0
        init_state =
      recurse_tree cfg_fail 1 (mkE "R" [] [mkE "Out" [] [], mkE "A" [] []]) "C" ["B"] 0
        ⟨["B"], ["(Out,(A,B))"], []⟩ :=
  (claim2_backtrack cfg_fail 1 (mkE "R" [] [mkE "Out" [] [], mkE "A" [] []]) "B" ["C"] 0
      init_state ⟨[], ["(Out,(A,B))"], []⟩ ⟨[], ["(Out,(A,B))"], []⟩
      [mkE "R" [] [mkE "Out" [] [],
        mkE "n1" [("internal", "1")] [mkE "A" [] [], mkE "B" [] []]]] []
      (by decide) (by decide) (by decide) (by decide)).1 "C" [] rfl (by decide) rfl

/-- C2 counterexample (to the claim's "per-search-attempt" reading of
the problem-node list): the first `find_graph` attempt leaves
`problem_nodes = [B, X]` in the object state; the second attempt
consults that carried-over list and immediately raises on `B`, whereas
the same second attempt started from a reset (per-attempt) problem list
raises on `X` only after further deferrals — so the list consulted by
the deferral check is per-instance state that persists across attempts,
not per-attempt state. -/
theorem claim2_counterexample :
    (find_graph cfg_cross 9 ["A", "B", "X", "C"] init_state).1.problem_nodes = ["B", "X"] ∧
      (find_graph cfg_cross 9 ["A", "B", "C", "X"]
          (find_graph cfg_cross 9 ["A", "B", "X", "C"] init_state).1).2 =
        .unplaceable "ERROR: Cannot place node B in the graph." ∧
      (find_graph cfg_cross 9 ["A", "B", "C", "X"]
          { (find_graph cfg_cross 9 ["A", "B", "X", "C"] init_state).1 with
            problem_nodes := [] }).2 =
        .unplaceable "ERROR: Cannot place node X in the graph." := by
  decide

theorem preorderL_eq_flat (cs : ElemList) : preorderL cs = cs.toList.flatMap preorder := by
  have h := preorderL_ofList cs.toList
  rw [ofList_toList] at h
  exact h

theorem countP_flat_set (P : Elem → Bool) :
    ∀ (l : List Elem) (i : Nat) (c c' : Elem), l[i]? = some c →
      ((l.set i c').flatMap preorder).countP P + (preorder c).countP P =
        (l.flatMap preorder).countP P + (preorder c').countP P := by
  intro l
  induction l with
  | nil => intro i c c' h; simp at h
  | cons x xs ih =>
    intro i c c' h
    cases i with
    | zero =>
      simp only [List.getElem?_cons_zero, Option.some.injEq] at h
      subst h
      simp only [List.set_cons_zero, List.flatMap_cons, List.countP_append]
      omega
    | succ n =>
      simp only [List.getElem?_cons_succ] at h
      simp only [List.set_cons_succ, List.flatMap_cons, List.countP_append]
      have := ih n c c' h
      omega

theorem countP_flat_erase (P : Elem → Bool) :
    ∀ (l : List Elem) (i : Nat) (c : Elem), l[i]? = some c →
      ((l.eraseIdx i).flatMap preorder).countP P + (preorder c).countP P =
        (l.flatMap preorder).countP P := by
  intro l
  induction l with
  | nil => intro i c h; simp at h
  | cons x xs ih =>
    intro i c h
    cases i with
    | zero =>
      simp only [List.getElem?_cons_zero, Option.some.injEq] at h
      subst h
      simp only [List.eraseIdx_cons_zero, List.flatMap_cons, List.countP_append]
      omega
    | succ n =>
      simp only [List.getElem?_cons_succ] at h
      simp only [List.eraseIdx_cons_succ, List.flatMap_cons, List.countP_append]
      have := ih n c h
      omega


theorem countP_preorder_mk (P : Elem → Bool)
    (hP : ∀ tg a cs cs', P (.mk tg a cs) = P (.mk tg a cs'))
    (tg : String) (A : List (String × String)) (cs : ElemList) :
    (preorder (.mk tg A cs)).countP P =
      (cs.toList.flatMap preorder).countP P + (if P (mkE tg A []) then 1 else 0) := by
  have h3 : P (Elem.mk tg A cs) = P (mkE tg A []) := hP tg A cs (ofList [])
  rw [preorder_mk, List.countP_cons, preorderL_eq_flat, h3]

/-- Effect of the non-append insertion surgery on the count of elements
satisfying a tag-and-attribute predicate: the new node's subtree is
added, plus possibly one intermediate internal `label` element (left
disjunct: sibling case; right disjunct: lone-child case). -/
theorem surgeryNA_countP (P : Elem → Bool)
    (hP : ∀ tg a cs cs', P (.mk tg a cs) = P (.mk tg a cs'))
    (label : String) (newNode : Elem) :
    ∀ (p : List Nat) (t t' : Elem), surgeryNA label newNode t p = some t' →
      (preorder t').countP P =
          (preorder t).countP P + (preorder newNode).countP P +
            (if P (mkE label [("internal", "1")] []) then 1 else 0) ∨
        (preorder t').countP P = (preorder t).countP P + (preorder newNode).countP P := by
  intro p
  induction p with
  | nil =>
    intro t t' h
    cases t with
    | mk tg a cs => simp [surgeryNA] at h
  | cons i rest ih =>
    intro t t' h
    cases t with
    | mk tg a cs =>
      cases rest with
      | nil =>
        simp only [surgeryNA] at h
        cases hci : cs.toList[i]? with
        | none => simp only [hci] at h; exact Option.noConfusion h
        | some c =>
          simp only [hci, Option.some.injEq] at h
          by_cases hlen : cs.toList.length > 1
          · rw [if_pos hlen] at h
            left
            subst h
            rw [countP_preorder_mk P hP, countP_preorder_mk P hP, toList_ofList]
            simp only [List.flatMap_append, List.flatMap_cons, List.flatMap_nil,
              List.countP_append, List.append_nil]
            have hinter : (preorder (mkE label [("internal", "1")] [c, newNode])).countP P =
                ((preorder c).countP P + (preorder newNode).countP P) +
                  (if P (mkE label [("internal", "1")] []) then 1 else 0) := by
              rw [show mkE label [("internal", "1")] [c, newNode] =
                  Elem.mk label [("internal", "1")] (ofList [c, newNode]) from rfl]
              rw [countP_preorder_mk P hP, toList_ofList]
              simp only [List.flatMap_cons, List.flatMap_nil, List.countP_append,
                List.append_nil]
            rw [hinter]
            have herase := countP_flat_erase P cs.toList i c hci
            omega
          · rw [if_neg hlen] at h
            right
            subst h
            rw [countP_preorder_mk P hP, countP_preorder_mk P hP, toList_ofList]
            simp only [List.flatMap_append, List.flatMap_cons, List.flatMap_nil,
              List.countP_append, List.append_nil]
            omega
      | cons j rest2 =>
        simp only [surgeryNA] at h
        cases hci : cs.toList[i]? with
        | none => simp only [hci] at h; exact Option.noConfusion h
        | some c =>
          simp only [hci] at h
          cases hrec : surgeryNA label newNode c (j :: rest2) with
          | none => simp only [hrec] at h; simp at h
          | some c' =>
            simp only [hrec] at h
            simp at h
            have hset := countP_flat_set P cs.toList i c c' hci
            rcases ih c c' hrec with hb | hb
            · left
              subst h
              rw [countP_preorder_mk P hP, countP_preorder_mk P hP, toList_ofList]
              omega
            · right
              subst h
              rw [countP_preorder_mk P hP, countP_preorder_mk P hP, toList_ofList]
              omega

/-- Effect of the append insertion surgery on such counts: exactly the
new node's subtree is added. -/
theorem surgeryAp_countP (P : Elem → Bool)
    (hP : ∀ tg a cs cs', P (.mk tg a cs) = P (.mk tg a cs'))
    (newNode : Elem) :
    ∀ (p : List Nat) (t t' : Elem), surgeryAp newNode t p = some t' →
      (preorder t').countP P = (preorder t).countP P + (preorder newNode).countP P := by
  intro p
  induction p with
  | nil =>
    intro t t' h
    cases t with
    | mk tg a cs =>
      simp only [surgeryAp, Option.some.injEq] at h
      subst h
      rw [countP_preorder_mk P hP, countP_preorder_mk P hP, toList_ofList]
      simp only [List.flatMap_append, List.flatMap_cons, List.flatMap_nil,
        List.countP_append, List.append_nil]
      omega
  | cons i rest ih =>
    intro t t' h
    cases t with
    | mk tg a cs =>
      simp only [surgeryAp] at h
      cases hci : cs.toList[i]? with
      | none => simp only [hci] at h; exact Option.noConfusion h
      | some c =>
        simp only [hci] at h
        cases hrec : surgeryAp newNode c rest with
        | none => simp only [hrec] at h; simp at h
        | some c' =>
          simp only [hrec] at h
          simp at h
          have hb := ih c c' hrec
          have hset := countP_flat_set P cs.toList i c c' hci
          subst h
          rw [countP_preorder_mk P hP, countP_preorder_mk P hP, toList_ofList]
          omega

theorem surgeryNA_root (label : String) (newNode : Elem) (tg : String)
    (a : List (String × String)) (cs : ElemList) (p : List Nat) (t' : Elem)
    (h : surgeryNA label newNode (.mk tg a cs) p = some t') :
    t'.tag = tg ∧ t'.attrs = a := by
  cases p with
  | nil => simp [surgeryNA] at h
  | cons i rest =>
    cases rest with
    | nil =>
      simp only [surgeryNA] at h
      cases hci : cs.toList[i]? with
      | none => simp only [hci] at h; exact Option.noConfusion h
      | some c =>
        simp only [hci, Option.some.injEq] at h
        subst h
        exact ⟨rfl, rfl⟩
    | cons j rest2 =>
      simp only [surgeryNA] at h
      cases hci : cs.toList[i]? with
      | none => simp only [hci] at h; exact Option.noConfusion h
      | some c =>
        simp only [hci] at h
        cases hrec : surgeryNA label newNode c (j :: rest2) with
        | none => simp only [hrec] at h; simp at h
        | some c' =>
          simp only [hrec] at h
          simp at h
          subst h
          exact ⟨rfl, rfl⟩

theorem surgeryAp_root (newNode : Elem) (tg : String)
    (a : List (String × String)) (cs : ElemList) (p : List Nat) (t' : Elem)
    (h : surgeryAp newNode (.mk tg a cs) p = some t') :
    t'.tag = tg ∧ t'.attrs = a := by
  cases p with
  | nil =>
    simp only [surgeryAp, Option.some.injEq] at h
    subst h
    exact ⟨rfl, rfl⟩
  | cons i rest =>
    simp only [surgeryAp] at h
    cases hci : cs.toList[i]? with
    | none => simp only [hci] at h; exact Option.noConfusion h
    | some c =>
      simp only [hci] at h
      cases hrec : surgeryAp newNode c rest with
      | none => simp only [hrec] at h; simp at h
      | some c' =>
        simp only [hrec] at h
        simp at h
        subst h
        exact ⟨rfl, rfl⟩

/-- Elimination form of a successful `insert_node`: the returned node is
the fresh element, and the tree was produced by the corresponding
surgery along the path found for the target. -/
theorem insert_node_some (t : Elem) (k : NodeKey) (new_tag : String)
    (attrs : List (String × String)) (ap : Bool) (t' n : Elem)
    (h : insert_node t k new_tag attrs ap = some (t', n)) :
    n = mkE new_tag attrs [] ∧ ∃ path, findPathE k t = some path ∧
      ((ap = true ∧ surgeryAp (mkE new_tag attrs []) t path = some t') ∨
        (ap = false ∧ surgeryNA (new_label t false) (mkE new_tag attrs []) t path = some t')) := by
  unfold insert_node at h
  cases hfp : findPathE k t with
  | none => simp only [hfp] at h; exact Option.noConfusion h
  | some path =>
    simp only [hfp] at h
    cases ap with
    | true =>
      simp only [if_pos rfl] at h
      cases hs : surgeryAp (mkE new_tag attrs []) t path with
      | none => simp only [hs] at h; simp at h
      | some tr =>
        simp only [hs] at h
        simp at h
        exact ⟨h.2.symm, path, rfl, Or.inl ⟨rfl, by rw [hs, h.1]⟩⟩
    | false =>
      simp only [Bool.false_eq_true, if_false] at h
      cases hs : surgeryNA (new_label t false) (mkE new_tag attrs []) t path with
      | none => simp only [hs] at h; simp at h
      | some tr =>
        simp only [hs] at h
        simp at h
        exact ⟨h.2.symm, path, rfl, Or.inr ⟨rfl, by rw [hs, h.1]⟩⟩

/-- Line 277 of the source: the number of leaf nodes of the topology,
`len([node for node in all_nodes if node.get('internal') != '1'])` over
`findall('.//*')`. -/
def num_leaf_nodes (t : Elem) : Nat :=
  (descendants t).countP (fun node => !(node.getAttr "internal" == some "1"))

theorem countP_descendants (P : Elem → Bool)
    (hP : ∀ tg a cs cs', P (.mk tg a cs) = P (.mk tg a cs')) (t : Elem) :
    (preorder t).countP P =
      (descendants t).countP P + (if P (mkE t.tag t.attrs []) then 1 else 0) := by
  cases t with
  | mk tg a cs =>
    rw [countP_preorder_mk P hP]
    rw [show descendants (.mk tg a cs) = preorderL cs from rfl, preorderL_eq_flat]
    rfl

theorem surgeryNA_root' (label : String) (newNode t : Elem) (p : List Nat) (t' : Elem)
    (h : surgeryNA label newNode t p = some t') :
    t'.tag = t.tag ∧ t'.attrs = t.attrs := by
  cases t with
  | mk tg a cs => exact surgeryNA_root label newNode tg a cs p t' h

theorem surgeryAp_root' (newNode t : Elem) (p : List Nat) (t' : Elem)
    (h : surgeryAp newNode t p = some t') :
    t'.tag = t.tag ∧ t'.attrs = t.attrs := by
  cases t with
  | mk tg a cs => exact surgeryAp_root newNode tg a cs p t' h

/-- Change in the leaf count (in preorder, root included) caused by one
successful `insert_node` call: one more leaf if the inserted element is
not flagged internal, none otherwise; any synthesized intermediate node
is flagged internal and never counts. -/
theorem insert_node_leafPre (t : Elem) (k : NodeKey) (new_tag : String)
    (attrs : List (String × String)) (ap : Bool) (t' n : Elem)
    (h : insert_node t k new_tag attrs ap = some (t', n)) :
    (preorder t').countP (fun node => !(node.getAttr "internal" == some "1")) =
      (preorder t).countP (fun node => !(node.getAttr "internal" == some "1")) +
        (if (mkE new_tag attrs []).getAttr "internal" == some "1" then 0 else 1) ∧
      t'.tag = t.tag ∧ t'.attrs = t.attrs := by
  obtain ⟨hn, path, hfp, hcase⟩ := insert_node_some t k new_tag attrs ap t' n h
  have hnew : (preorder (mkE new_tag attrs [])).countP
      (fun node => !(node.getAttr "internal" == some "1")) =
      (if (mkE new_tag attrs []).getAttr "internal" == some "1" then 0 else 1) := by
    rw [show preorder (mkE new_tag attrs []) = [mkE new_tag attrs []] from by
      rw [mkE, preorder_mk]; rfl]
    rw [List.countP_cons, List.countP_nil]
    cases hia : (mkE new_tag attrs []).getAttr "internal" == some "1" <;> simp [hia]
  rcases hcase with ⟨_, hsurg⟩ | ⟨_, hsurg⟩
  · refine ⟨?_, surgeryAp_root' _ _ _ _ hsurg⟩
    have hcnt := surgeryAp_countP (fun node => !(node.getAttr "internal" == some "1"))
      (fun _ _ _ _ => rfl) (mkE new_tag attrs []) path t t' hsurg
    rw [hnew] at hcnt
    exact hcnt
  · refine ⟨?_, surgeryNA_root' _ _ _ _ _ hsurg⟩
    have hcnt := surgeryNA_countP (fun node => !(node.getAttr "internal" == some "1"))
      (fun _ _ _ _ => rfl) (new_label t false) (mkE new_tag attrs []) path t t' hsurg
    rw [hnew] at hcnt
    have hbit : (fun node => !(node.getAttr "internal" == some "1"))
        (mkE (new_label t false) [("internal", "1")] []) = false := rfl
    rw [hbit] at hcnt
    simp only [Bool.false_eq_true, if_false] at hcnt
    rcases hcnt with hcnt | hcnt
    · omega
    · exact hcnt

/-- C8: insertion monotonicity.  A regular insertion (`insert_node` with
no attributes, non-append) increases the leaf count — elements not
flagged internal, as counted at line 277 — by exactly one, even when an
intermediate internal node is synthesized; and a whole admixture
insertion (two internal ingress elements plus the appended new leaf)
also increases the leaf count by exactly one. -/
theorem claim8_insertion_monotonicity :
    (∀ (t : Elem) (k : NodeKey) (new_tag : String) (t' n : Elem),
        insert_node t k new_tag [] false = some (t', n) →
        num_leaf_nodes t' = num_leaf_nodes t + 1) ∧
    (∀ (t : Elem) (k1 k2 : NodeKey) (new_tag : String) (t3 : Elem),
        admix_insert t k1 k2 new_tag = some t3 →
        num_leaf_nodes t3 = num_leaf_nodes t + 1) := by
  have hP : ∀ tg a cs cs',
      (fun node => !(node.getAttr "internal" == some "1")) (Elem.mk tg a cs) =
        (fun node => !(node.getAttr "internal" == some "1")) (Elem.mk tg a cs') :=
    fun _ _ _ _ => rfl
  constructor
  · intro t k new_tag t' n h
    obtain ⟨hcnt, htag, hattrs⟩ := insert_node_leafPre t k new_tag [] false t' n h
    have hd1 := countP_descendants (fun node => !(node.getAttr "internal" == some "1")) hP t'
    have hd2 := countP_descendants (fun node => !(node.getAttr "internal" == some "1")) hP t
    rw [htag, hattrs] at hd1
    unfold num_leaf_nodes
    rw [show (if (mkE new_tag [] []).getAttr "internal" == some "1" then (0 : Nat) else 1) =
      1 from rfl] at hcnt
    generalize (if (!(mkE t.tag t.attrs []).getAttr "internal" == some "1") = true
      then (1 : Nat) else 0) = rb at hd1 hd2
    omega
  · intro t k1 k2 new_tag t3 h
    unfold admix_insert at h
    cases h1 : insert_node t k1 (new_label t true)
        [("internal", "1"), ("admix", "1"), ("side", "l")] false with
    | none => simp only [h1] at h; exact Option.noConfusion h
    | some pr1 =>
      obtain ⟨t1, n1⟩ := pr1
      simp only [h1] at h
      cases h2 : insert_node t1 k2 (new_label t true)
          [("internal", "1"), ("admix", "1"), ("side", "r")] false with
      | none => simp only [h2] at h; exact Option.noConfusion h
      | some pr2 =>
        obtain ⟨t2, n2⟩ := pr2
        simp only [h2] at h
        cases h3 : insert_node t2 (keyOf (if strLt k1.tag k2.tag then n1 else n2))
            new_tag [] true with
        | none => simp only [h3] at h; exact Option.noConfusion h
        | some pr3 =>
          obtain ⟨t3', n3⟩ := pr3
          simp only [h3, Option.some.injEq] at h
          subst h
          obtain ⟨hc1, htag1, hattrs1⟩ := insert_node_leafPre t k1 (new_label t true)
            [("internal", "1"), ("admix", "1"), ("side", "l")] false t1 n1 h1
          obtain ⟨hc2, htag2, hattrs2⟩ := insert_node_leafPre t1 k2 (new_label t true)
            [("internal", "1"), ("admix", "1"), ("side", "r")] false t2 n2 h2
          obtain ⟨hc3, htag3, hattrs3⟩ := insert_node_leafPre t2
            (keyOf (if strLt k1.tag k2.tag then n1 else n2)) new_tag [] true t3' n3 h3
          rw [show (if (mkE (new_label t true)
              [("internal", "1"), ("admix", "1"), ("side", "l")] []).getAttr "internal" ==
              some "1" then (0 : Nat) else 1) = 0 from rfl] at hc1
          rw [show (if (mkE (new_label t true)
              [("internal", "1"), ("admix", "1"), ("side", "r")] []).getAttr "internal" ==
              some "1" then (0 : Nat) else 1) = 0 from rfl] at hc2
          rw [show (if (mkE new_tag [] []).getAttr "internal" == some "1"
              then (0 : Nat) else 1) = 1 from rfl] at hc3
          have hd1 := countP_descendants
            (fun node => !(node.getAttr "internal" == some "1")) hP t3'
          have hd2 := countP_descendants
            (fun node => !(node.getAttr "internal" == some "1")) hP t
          rw [htag3, htag2, htag1, hattrs3, hattrs2, hattrs1] at hd1
          unfold num_leaf_nodes
          generalize (if (!(mkE t.tag t.attrs []).getAttr "internal" == some "1") = true
            then (1 : Nat) else 0) = rb at hd1 hd2
          omega

/-- Witness for C8 at concrete inputs: a regular insertion of `B` beside
`A` (which synthesizes `n1`), and an admixture insertion of `C` over the
pair `(A, B)`, each add exactly one leaf. -/
theorem claim8_insertion_monotonicity_witness :
    insert_node (mkE "R" [] [mkE "Out" [] [], mkE "A" [] []]) ⟨"A", none⟩ "B" [] false =
        some (mkE "R" [] [mkE "Out" [] [],
          mkE "n1" [("internal", "1")] [mkE "A" [] [], mkE "B" [] []]], mkE "B" [] []) ∧
      num_leaf_nodes (mkE "R" [] [mkE "Out" [] [],
          mkE "n1" [("internal", "1")] [mkE "A" [] [], mkE "B" [] []]]) =
        num_leaf_nodes (mkE "R" [] [mkE "Out" [] [], mkE "A" [] []]) + 1 ∧
      (∀ t3 : Elem,
        admix_insert (mkE "R" [] [mkE "Out" [] [], mkE "A" [] [], mkE "B" [] []])
            ⟨"A", none⟩ ⟨"B", none⟩ "C" = some t3 →
        num_leaf_nodes t3 =
          num_leaf_nodes (mkE "R" [] [mkE "Out" [] [], mkE "A" [] [], mkE "B" [] []]) + 1) :=
  ⟨by decide,
    claim8_insertion_monotonicity.1 (mkE "R" [] [mkE "Out" [] [], mkE "A" [] []])
      ⟨"A", none⟩ "B"
      (mkE "R" [] [mkE "Out" [] [],
        mkE "n1" [("internal", "1")] [mkE "A" [] [], mkE "B" [] []]])
      (mkE "B" [] []) (by decide),
    fun t3 h3 => claim8_insertion_monotonicity.2
      (mkE "R" [] [mkE "Out" [] [], mkE "A" [] [], mkE "B" [] []])
      ⟨"A", none⟩ ⟨"B", none⟩ "C" t3 h3⟩

/-- Element reached from `e` by following child indices (`[]` is `e`
itself). -/
def nodeAt : Elem → List Nat → Option Elem
  | e, [] => some e
  | e, i :: p =>
    match e.childList[i]? with
    | some c => nodeAt c p
    | none => none

theorem self_mem_preorder (c : Elem) : c ∈ preorder c := by
  cases c with
  | mk tg a cs => rw [preorder_mk]; exact List.mem_cons_self _ _

theorem sizeOf_lt_of_mem_toList : (cs : ElemList) → ∀ y ∈ cs.toList, sizeOf y < sizeOf cs
  | .nil => by intro y hy; simp [ElemList.toList] at hy
  | .cons e es => by
    intro y hy
    rw [ElemList.toList] at hy
    rcases List.mem_cons.mp hy with rfl | h2
    · simp
      omega
    · have := sizeOf_lt_of_mem_toList es y h2
      simp
      omega

theorem nodeAt_mem : ∀ (p : List Nat) (t c : Elem), nodeAt t p = some c → c ∈ preorder t := by
  intro p
  induction p with
  | nil =>
    intro t c h
    simp only [nodeAt, Option.some.injEq] at h
    subst h
    exact self_mem_preorder t
  | cons i rest ih =>
    intro t c h
    simp only [nodeAt] at h
    cases hci : t.childList[i]? with
    | none => simp only [hci] at h; exact Option.noConfusion h
    | some ci =>
      simp only [hci] at h
      have hmem : c ∈ preorder ci := ih ci c h
      cases t with
      | mk tg a cs =>
        rw [preorder_mk]
        refine List.mem_cons_of_mem _ ?_
        rw [preorderL_eq_flat]
        have hmem2 : ci ∈ cs.toList := by
          have := List.getElem?_mem hci
          exact this
        exact List.mem_flatMap.mpr ⟨ci, hmem2, hmem⟩

theorem mem_preorder_child_aux :
    ∀ (n : Nat) (x q c : Elem), sizeOf x ≤ n → q ∈ preorder x → c ∈ q.childList →
      c ∈ preorder x := by
  intro n
  induction n with
  | zero =>
    intro x q c hs
    cases x with
    | mk tg a cs => simp at hs
  | succ n ih =>
    intro x q c hs hq hc
    cases x with
    | mk tg a cs =>
      rw [preorder_mk] at hq
      rw [preorder_mk]
      rcases List.mem_cons.mp hq with rfl | hq2
      · refine List.mem_cons_of_mem _ ?_
        rw [preorderL_eq_flat]
        exact List.mem_flatMap.mpr ⟨c, hc, self_mem_preorder c⟩
      · refine List.mem_cons_of_mem _ ?_
        rw [preorderL_eq_flat] at hq2 ⊢
        obtain ⟨y, hy, hqy⟩ := List.mem_flatMap.mp hq2
        have hsy : sizeOf y < sizeOf cs := sizeOf_lt_of_mem_toList cs y hy
        have hsx : sizeOf cs < sizeOf (Elem.mk tg a cs) := by simp
        exact List.mem_flatMap.mpr ⟨y, hy, ih y q c (by omega) hqy hc⟩

/-- Children of any node listed in the preorder of `x` are themselves in
the preorder of `x`. -/
theorem mem_preorder_child (x q c : Elem) (hq : q ∈ preorder x) (hc : c ∈ q.childList) :
    c ∈ preorder x :=
  mem_preorder_child_aux (sizeOf x) x q c (le_of_eq rfl) hq hc

mutual
/-- Soundness of the XPath search on an element: the returned path leads
to an element matching the key. -/
theorem findPathE_sound (k : NodeKey) :
    (t : Elem) → ∀ p, findPathE k t = some p →
      ∃ i q c, p = i :: q ∧ nodeAt t (i :: q) = some c ∧ matchKey k c = true
  | .mk tg a cs => by
    intro p h
    rw [findPathE] at h
    obtain ⟨i, q, c, ci, hp, hci, hnode, hm⟩ := findPathF_sound k cs p h
    refine ⟨i, q, c, hp, ?_, hm⟩
    simp only [nodeAt]
    rw [show (Elem.mk tg a cs).childList = cs.toList from rfl, hci]
    exact hnode

/-- Soundness of the XPath search on a forest. -/
theorem findPathF_sound (k : NodeKey) :
    (cs : ElemList) → ∀ p, findPathF k cs = some p →
      ∃ i q c ci, p = i :: q ∧ cs.toList[i]? = some ci ∧ nodeAt ci q = some c ∧
        matchKey k c = true
  | .nil => by intro p h; rw [findPathF] at h; exact Option.noConfusion h
  | .cons c cs => by
    intro p h
    rw [findPathF] at h
    by_cases hm : matchKey k c
    · rw [if_pos hm] at h
      simp only [Option.some.injEq] at h
      subst h
      refine ⟨0, [], c, c, rfl, ?_, rfl, hm⟩
      rw [show (ElemList.cons c cs).toList = c :: cs.toList from rfl]
      simp
    · rw [if_neg hm] at h
      cases hE : findPathE k c with
      | some p' =>
        simp only [hE, Option.some.injEq] at h
        subst h
        obtain ⟨i', q', c', hp', hnode, hm'⟩ := findPathE_sound k c p' hE
        refine ⟨0, p', c', c, rfl, ?_, ?_, hm'⟩
        · rw [show (ElemList.cons c cs).toList = c :: cs.toList from rfl]
          simp
        · rw [hp']
          exact hnode
      | none =>
        simp only [hE] at h
        cases hF : findPathF k cs with
        | none => simp only [hF] at h; exact Option.noConfusion h
        | some q =>
          obtain ⟨j, rest, c', ci, hq, hci, hnode, hm'⟩ := findPathF_sound k cs q hF
          subst hq
          rw [hF] at h
          simp at h
          subst h
          refine ⟨j + 1, rest, c', ci, rfl, ?_, hnode, hm'⟩
          rw [show (ElemList.cons c cs).toList = c :: cs.toList from rfl]
          simp only [List.getElem?_cons_succ]
          exact hci
end

/-- A successful `find` yields a non-empty path to a matching element. -/
theorem findPath_sound (k : NodeKey) (t : Elem) (p : List Nat)
    (h : findPathE k t = some p) :
    ∃ c, nodeAt t p = some c ∧ matchKey k c = true ∧ p ≠ [] := by
  obtain ⟨i, q, c, hp, hnode, hm⟩ := findPathE_sound k t p h
  subst hp
  exact ⟨c, hnode, hm, by simp⟩

/-- The candidate entry of one element for `parentsOf`: its (tag, attrs)
if it has a child with the given tag. -/
def parentEntry (ctag : String) (q : Elem) : Option (String × List (String × String)) :=
  if q.childList.any (fun c => c.tag == ctag) then some (q.tag, q.attrs) else none

/-- The (tag, attrs) of every element of the topology having at least
one child tagged `ctag`, in document order. -/
def parentsOf (t : Elem) (ctag : String) : List (String × List (String × String)) :=
  (preorder t).filterMap (parentEntry ctag)

theorem parentEntry_none_of_count0 (x : Elem) (ctag : String)
    (hcnt : (preorder x).countP (fun e => e.tag == ctag) = 0) :
    ∀ q ∈ preorder x, parentEntry ctag q = none := by
  intro q hq
  unfold parentEntry
  rw [if_neg]
  intro hany
  obtain ⟨c, hc, htag⟩ := List.any_eq_true.mp hany
  have hcmem : c ∈ preorder x := mem_preorder_child x q c hq hc
  have hpos : 0 < (preorder x).countP (fun e => e.tag == ctag) :=
    List.countP_pos_iff.mpr ⟨c, hcmem, htag⟩
  omega

theorem filterMap_flat_set_nil {γ : Type} (f : Elem → Option γ) :
    ∀ (l : List Elem) (i : Nat) (ci ci' : Elem), l[i]? = some ci →
      (∀ q ∈ l.flatMap preorder, f q = none) →
      ((l.set i ci').flatMap preorder).filterMap f = (preorder ci').filterMap f := by
  intro l
  induction l with
  | nil => intro i ci ci' h; simp at h
  | cons x xs ih =>
    intro i ci ci' h hnone
    cases i with
    | zero =>
      simp only [List.set_cons_zero, List.flatMap_cons, List.filterMap_append]
      have hxs : (xs.flatMap preorder).filterMap f = [] :=
        List.filterMap_eq_nil_iff.mpr (fun q hq =>
          hnone q (by rw [List.flatMap_cons]; exact List.mem_append_right _ hq))
      rw [hxs]
      simp
    | succ n =>
      simp only [List.getElem?_cons_succ] at h
      simp only [List.set_cons_succ, List.flatMap_cons, List.filterMap_append]
      have hx : (preorder x).filterMap f = [] :=
        List.filterMap_eq_nil_iff.mpr (fun q hq =>
          hnone q (by rw [List.flatMap_cons]; exact List.mem_append_left _ hq))
      rw [hx]
      rw [ih n ci ci' h (fun q hq =>
        hnone q (by rw [List.flatMap_cons]; exact List.mem_append_right _ hq))]
      simp

/-- After the append surgery inserts a (childless) element tagged `ctag`
into a topology previously containing no element tagged `ctag`, exactly
one element of the result has a `ctag` child: the element at the path
the surgery was applied to. -/
theorem surgeryAp_parentsOf (newNode : Elem) (ctag : String)
    (htag : newNode.tag = ctag) (hch : newNode.children = .nil) :
    ∀ (p : List Nat) (t t' c : Elem), surgeryAp newNode t p = some t' →
      nodeAt t p = some c →
      (preorder t).countP (fun e => e.tag == ctag) = 0 →
      parentsOf t' ctag = [(c.tag, c.attrs)] := by
  intro p
  induction p with
  | nil =>
    intro t t' c hs hn hcnt
    cases t with
    | mk tg a cs =>
      simp only [surgeryAp, Option.some.injEq] at hs
      simp only [nodeAt, Option.some.injEq] at hn
      subst hs
      subst hn
      unfold parentsOf
      rw [preorder_mk, preorderL_eq_flat, toList_ofList, List.filterMap_cons]
      have hroot : parentEntry ctag (Elem.mk tg a (ofList (cs.toList ++ [newNode]))) =
          some (tg, a) := by
        have hmem : newNode ∈ (Elem.mk tg a (ofList (cs.toList ++ [newNode]))).childList := by
          rw [show (Elem.mk tg a (ofList (cs.toList ++ [newNode]))).childList =
            cs.toList ++ [newNode] from by simp [Elem.childList, Elem.children]]
          exact List.mem_append_right _ (List.mem_singleton_self _)
        have htagb : (fun c => c.tag == ctag) newNode = true := by
          show (newNode.tag == ctag) = true
          rw [htag]
          simp
        have hcond : (Elem.mk tg a (ofList (cs.toList ++ [newNode]))).childList.any
            (fun c => c.tag == ctag) = true :=
          List.any_eq_true.mpr ⟨newNode, hmem, htagb⟩
        unfold parentEntry
        rw [if_pos hcond]
        rfl
      rw [hroot]
      rw [List.flatMap_append]
      rw [List.filterMap_append]
      have hflatnone : (cs.toList.flatMap preorder).filterMap (parentEntry ctag) = [] := by
        refine List.filterMap_eq_nil_iff.mpr (fun q hq => ?_)
        refine parentEntry_none_of_count0 (Elem.mk tg a cs) ctag hcnt q ?_
        rw [preorder_mk, preorderL_eq_flat]
        exact List.mem_cons_of_mem _ hq
      rw [hflatnone]
      have hnewflat : ([newNode] : List Elem).flatMap preorder = [newNode] := by
        cases newNode with
        | mk nt na ncs =>
          cases ncs with
          | nil => simp [List.flatMap_cons]
          | cons hh tt => simp [Elem.children] at hch
      rw [hnewflat]
      have hnewnone : parentEntry ctag newNode = none := by
        unfold parentEntry
        rw [if_neg]
        intro hany
        obtain ⟨cc, hcc, _⟩ := List.any_eq_true.mp hany
        rw [show newNode.childList = [] from by rw [Elem.childList, hch]; rfl] at hcc
        exact absurd hcc (List.not_mem_nil cc)
      rw [List.filterMap_cons, hnewnone, List.filterMap_nil]
      rfl
  | cons i rest ih =>
    intro t t' c hs hn hcnt
    cases t with
    | mk tg a cs =>
      simp only [surgeryAp] at hs
      simp only [nodeAt] at hn
      cases hci : cs.toList[i]? with
      | none =>
        rw [show (Elem.mk tg a cs).childList = cs.toList from rfl, hci] at hn
        exact Option.noConfusion hn
      | some ci =>
        simp only [hci] at hs
        rw [show (Elem.mk tg a cs).childList = cs.toList from rfl, hci] at hn
        cases hrec : surgeryAp newNode ci rest with
        | none => simp only [hrec] at hs; simp at hs
        | some ci' =>
          simp only [hrec] at hs
          simp at hs
          subst hs
          have hcimem : ci ∈ cs.toList := List.getElem?_mem hci
          have hcnt_ci : (preorder ci).countP (fun e => e.tag == ctag) = 0 := by
            have herase := countP_flat_erase (fun e => e.tag == ctag) cs.toList i ci hci
            have hsplit : (preorder (Elem.mk tg a cs)).countP (fun e => e.tag == ctag) =
                ((if (Elem.mk tg a cs).tag == ctag then 1 else 0) : Nat) +
                  (cs.toList.flatMap preorder).countP (fun e => e.tag == ctag) := by
              rw [preorder_mk, List.countP_cons, preorderL_eq_flat]
              omega
            omega
          have hIH := ih ci ci' c hrec hn hcnt_ci
          unfold parentsOf
          rw [preorder_mk, preorderL_eq_flat, toList_ofList, List.filterMap_cons]
          have hroot : parentEntry ctag (Elem.mk tg a (ofList (cs.toList.set i ci'))) =
              none := by
            unfold parentEntry
            rw [if_neg]
            intro hany
            obtain ⟨y, hy, hytag⟩ := List.any_eq_true.mp hany
            rw [show (Elem.mk tg a (ofList (cs.toList.set i ci'))).childList =
              cs.toList.set i ci' from by simp [Elem.childList, Elem.children]] at hy
            have hyor := List.mem_or_eq_of_mem_set hy
            have hbad : ∃ z ∈ preorder (Elem.mk tg a cs), (z.tag == ctag) = true := by
              rcases hyor with hyl | rfl
              · exact ⟨y, mem_preorder_child (Elem.mk tg a cs) (Elem.mk tg a cs) y
                  (self_mem_preorder _) hyl, hytag⟩
              · have hcitag : (ci.tag == ctag) = true := by
                  have := (surgeryAp_root' newNode ci rest y hrec).1
                  rw [← this]
                  exact hytag
                exact ⟨ci, mem_preorder_child (Elem.mk tg a cs) (Elem.mk tg a cs) ci
                  (self_mem_preorder _) hcimem, hcitag⟩
            obtain ⟨z, hz, hztag⟩ := hbad
            have hpos : 0 < (preorder (Elem.mk tg a cs)).countP (fun e => e.tag == ctag) :=
              List.countP_pos_iff.mpr ⟨z, hz, hztag⟩
            omega
          rw [hroot]
          rw [filterMap_flat_set_nil (parentEntry ctag) cs.toList i ci ci' hci
            (fun q hq => parentEntry_none_of_count0 (Elem.mk tg a cs) ctag hcnt q
              (by rw [preorder_mk, preorderL_eq_flat]; exact List.mem_cons_of_mem _ hq))]
          exact hIH

theorem countP_preorder_single (P : Elem → Bool) (tag : String)
    (A : List (String × String)) :
    (preorder (mkE tag A [])).countP P = if P (mkE tag A []) then 1 else 0 := by
  rw [show preorder (mkE tag A []) = [mkE tag A []] from by rw [mkE, preorder_mk]; rfl]
  rw [List.countP_cons, List.countP_nil]
  omega

/-- Count effect of one successful `insert_node` for any tag/attribute
predicate that does not hold of the synthesized intermediate node. -/
theorem insert_node_countP (P : Elem → Bool)
    (hP : ∀ tg a cs cs', P (.mk tg a cs) = P (.mk tg a cs'))
    (t : Elem) (k : NodeKey) (new_tag : String) (attrs : List (String × String))
    (ap : Bool) (t' n : Elem)
    (h : insert_node t k new_tag attrs ap = some (t', n))
    (hinter : P (mkE (new_label t false) [("internal", "1")] []) = false) :
    (preorder t').countP P =
      (preorder t).countP P + (if P (mkE new_tag attrs []) then 1 else 0) := by
  obtain ⟨hn, path, hfp, hcase⟩ := insert_node_some t k new_tag attrs ap t' n h
  rcases hcase with ⟨_, hsurg⟩ | ⟨_, hsurg⟩
  · rw [surgeryAp_countP P hP (mkE new_tag attrs []) path t t' hsurg,
      countP_preorder_single]
  · rcases surgeryNA_countP P hP (new_label t false) (mkE new_tag attrs []) path t t' hsurg
      with hc | hc
    · rw [hc, countP_preorder_single, hinter]
      simp
    · rw [hc, countP_preorder_single]

theorem beq_eq_false_of_head (s1 s2 : String) (h : s1.data.head? ≠ s2.data.head?) :
    (s1 == s2) = false := by
  rw [beq_eq_false_iff_ne]
  intro heq
  exact h (by rw [heq])

theorem new_label_head (t : Elem) (b : Bool) :
    (new_label t b).data.head? = some (if b then 'a' else 'n') := by
  unfold new_label
  cases b <;> rfl

theorem ite_of_true {n m : Nat} {b : Bool} (h : b = true) : (if b then n else m) = n := by
  rw [h]
  simp

theorem ite_of_false {n m : Nat} {b : Bool} (h : b = false) : (if b then n else m) = m := by
  rw [h]
  simp

/-- C5: admixture insertion.  Under freshness of the generated admixture
label and of the inserted tag (which, as a population label, starts with
neither `n` nor `a`), the admixture step creates exactly two ingress
elements carrying the same fresh merge label — one with attributes
`internal, admix, side=l`, one with `side=r` — and the new tag occurs
exactly once, attached under exactly one ingress element: the one on
side `l` if `target1.tag < target2.tag` (Python string order), else the
one on side `r`. -/
theorem claim5_admixture_insertion (t : Elem) (k1 k2 : NodeKey) (new_tag : String)
    (t3 : Elem)
    ( _hk : k1.tag ≠ k2.tag)
    (hfa : (preorder t).countP (fun e => e.tag == new_label t true) = 0)
    (hfn : (preorder t).countP (fun e => e.tag == new_tag) = 0)
    (hn : new_tag.data.head? ≠ some 'n')
    (ha : new_tag.data.head? ≠ some 'a')
    (h : admix_insert t k1 k2 new_tag = some t3) :
    (preorder t3).countP (fun e => e.tag == new_label t true) = 2 ∧
      (preorder t3).countP (fun e => e.tag == new_label t true &&
        decide (e.attrs = [("internal", "1"), ("admix", "1"), ("side", "l")])) = 1 ∧
      (preorder t3).countP (fun e => e.tag == new_label t true &&
        decide (e.attrs = [("internal", "1"), ("admix", "1"), ("side", "r")])) = 1 ∧
      (preorder t3).countP (fun e => e.tag == new_tag) = 1 ∧
      parentsOf t3 new_tag = [(new_label t true,
        [("internal", "1"), ("admix", "1"),
          ("side", if strLt k1.tag k2.tag then "l" else "r")])] := by
  have hna : ∀ x : Elem, ((new_label x false) == new_label t true) = false := fun x =>
    beq_eq_false_of_head _ _ (by rw [new_label_head, new_label_head]; simp)
  have hnt : ∀ x : Elem, ((new_label x false) == new_tag) = false := fun x =>
    beq_eq_false_of_head _ _ (by rw [new_label_head]; intro hEq; exact hn hEq.symm)
  have hat : ((new_label t true) == new_tag) = false :=
    beq_eq_false_of_head _ _ (by rw [new_label_head]; intro hEq; exact ha hEq.symm)
  have hta : (new_tag == new_label t true) = false :=
    beq_eq_false_of_head _ _ (by rw [new_label_head]; simpa using ha)
  unfold admix_insert at h
  cases h1 : insert_node t k1 (new_label t true)
      [("internal", "1"), ("admix", "1"), ("side", "l")] false with
  | none =>
    simp only [h1] at h
    exact Option.noConfusion h
  | some pr1 =>
    obtain ⟨t1, n1⟩ := pr1
    simp only [h1] at h
    cases h2 : insert_node t1 k2 (new_label t true)
        [("internal", "1"), ("admix", "1"), ("side", "r")] false with
    | none =>
      simp only [h2] at h
      exact Option.noConfusion h
    | some pr2 =>
      obtain ⟨t2, n2⟩ := pr2
      simp only [h2] at h
      cases h3 : insert_node t2 (keyOf (if strLt k1.tag k2.tag then n1 else n2))
          new_tag [] true with
      | none =>
        simp only [h3] at h
        exact Option.noConfusion h
      | some pr3 =>
        obtain ⟨t3', n3⟩ := pr3
        simp only [h3, Option.some.injEq] at h
        subst h
        -- count of elements carrying the admixture label, and of the new tag
        have hc1a := insert_node_countP (fun e => e.tag == new_label t true)
          (fun _ _ _ _ => rfl) t k1 (new_label t true)
          [("internal", "1"), ("admix", "1"), ("side", "l")] false t1 n1 h1 (hna t)
        have hc2a := insert_node_countP (fun e => e.tag == new_label t true)
          (fun _ _ _ _ => rfl) t1 k2 (new_label t true)
          [("internal", "1"), ("admix", "1"), ("side", "r")] false t2 n2 h2 (hna t1)
        have hc3a := insert_node_countP (fun e => e.tag == new_label t true)
          (fun _ _ _ _ => rfl) t2 (keyOf (if strLt k1.tag k2.tag then n1 else n2))
          new_tag [] true t3' n3 h3 (hna t2)
        rw [ite_of_true (by simp)] at hc1a
        rw [ite_of_true (by simp)] at hc2a
        rw [ite_of_false (by simpa using hta)] at hc3a
        have hc1n := insert_node_countP (fun e => e.tag == new_tag)
          (fun _ _ _ _ => rfl) t k1 (new_label t true)
          [("internal", "1"), ("admix", "1"), ("side", "l")] false t1 n1 h1 (hnt t)
        have hc2n := insert_node_countP (fun e => e.tag == new_tag)
          (fun _ _ _ _ => rfl) t1 k2 (new_label t true)
          [("internal", "1"), ("admix", "1"), ("side", "r")] false t2 n2 h2 (hnt t1)
        have hc3n := insert_node_countP (fun e => e.tag == new_tag)
          (fun _ _ _ _ => rfl) t2 (keyOf (if strLt k1.tag k2.tag then n1 else n2))
          new_tag [] true t3' n3 h3 (hnt t2)
        rw [ite_of_false (by simpa using hat)] at hc1n
        rw [ite_of_false (by simpa using hat)] at hc2n
        rw [ite_of_true (by simp)] at hc3n
        have hcn_t2 : (preorder t2).countP (fun e => e.tag == new_tag) = 0 := by omega
        have hc1l := insert_node_countP (fun e => e.tag == new_label t true &&
            decide (e.attrs = [("internal", "1"), ("admix", "1"), ("side", "l")]))
          (fun _ _ _ _ => rfl) t k1 (new_label t true)
          [("internal", "1"), ("admix", "1"), ("side", "l")] false t1 n1 h1
          (by simp [hna t])
        have hc2l := insert_node_countP (fun e => e.tag == new_label t true &&
            decide (e.attrs = [("internal", "1"), ("admix", "1"), ("side", "l")]))
          (fun _ _ _ _ => rfl) t1 k2 (new_label t true)
          [("internal", "1"), ("admix", "1"), ("side", "r")] false t2 n2 h2
          (by simp [hna t1])
        have hc3l := insert_node_countP (fun e => e.tag == new_label t true &&
            decide (e.attrs = [("internal", "1"), ("admix", "1"), ("side", "l")]))
          (fun _ _ _ _ => rfl) t2 (keyOf (if strLt k1.tag k2.tag then n1 else n2))
          new_tag [] true t3' n3 h3 (by simp [hna t2])
        rw [ite_of_true (by simp)] at hc1l
        rw [ite_of_false (by simp)] at hc2l
        rw [ite_of_false (by simp [hta])] at hc3l
        have hc1r := insert_node_countP (fun e => e.tag == new_label t true &&
            decide (e.attrs = [("internal", "1"), ("admix", "1"), ("side", "r")]))
          (fun _ _ _ _ => rfl) t k1 (new_label t true)
          [("internal", "1"), ("admix", "1"), ("side", "l")] false t1 n1 h1
          (by simp [hna t])
        have hc2r := insert_node_countP (fun e => e.tag == new_label t true &&
            decide (e.attrs = [("internal", "1"), ("admix", "1"), ("side", "r")]))
          (fun _ _ _ _ => rfl) t1 k2 (new_label t true)
          [("internal", "1"), ("admix", "1"), ("side", "r")] false t2 n2 h2
          (by simp [hna t1])
        have hc3r := insert_node_countP (fun e => e.tag == new_label t true &&
            decide (e.attrs = [("internal", "1"), ("admix", "1"), ("side", "r")]))
          (fun _ _ _ _ => rfl) t2 (keyOf (if strLt k1.tag k2.tag then n1 else n2))
          new_tag [] true t3' n3 h3 (by simp [hna t2])
        rw [ite_of_false (by simp)] at hc1r
        rw [ite_of_true (by simp)] at hc2r
        rw [ite_of_false (by simp [hta])] at hc3r
        have hfl : (preorder t).countP (fun e => e.tag == new_label t true &&
            decide (e.attrs = [("internal", "1"), ("admix", "1"), ("side", "l")])) = 0 := by
          have hle := List.countP_mono_left (l := preorder t)
            (p := fun e => e.tag == new_label t true &&
              decide (e.attrs = [("internal", "1"), ("admix", "1"), ("side", "l")]))
            (q := fun e => e.tag == new_label t true)
            (fun e _ hp => by
              simp only [Bool.and_eq_true] at hp
              exact hp.1)
          omega
        have hfr : (preorder t).countP (fun e => e.tag == new_label t true &&
            decide (e.attrs = [("internal", "1"), ("admix", "1"), ("side", "r")])) = 0 := by
          have hle := List.countP_mono_left (l := preorder t)
            (p := fun e => e.tag == new_label t true &&
              decide (e.attrs = [("internal", "1"), ("admix", "1"), ("side", "r")]))
            (q := fun e => e.tag == new_label t true)
            (fun e _ hp => by
              simp only [Bool.and_eq_true] at hp
              exact hp.1)
          omega
        refine ⟨by omega, by omega, by omega, by omega, ?_⟩
        -- the attachment point of the new tag
        obtain ⟨hn1, _⟩ := insert_node_some t k1 (new_label t true)
          [("internal", "1"), ("admix", "1"), ("side", "l")] false t1 n1 h1
        obtain ⟨hn2, _⟩ := insert_node_some t1 k2 (new_label t true)
          [("internal", "1"), ("admix", "1"), ("side", "r")] false t2 n2 h2
        subst hn1
        subst hn2
        obtain ⟨_, path3, hfp3, hor⟩ := insert_node_some t2 _ new_tag [] true t3' n3 h3
        rcases hor with ⟨_, hsurg3⟩ | ⟨hff, _⟩
        · obtain ⟨cnode, hnode, hmatch, -⟩ := findPath_sound _ t2 path3 hfp3
          have hparents := surgeryAp_parentsOf (mkE new_tag [] []) new_tag rfl rfl
            path3 t2 t3' cnode hsurg3 hnode hcn_t2
          rw [hparents]
          -- identify the matched ingress element
          have hbad : (preorder t2).countP (fun e => e.tag == new_label t true &&
              !(decide (e.attrs = [("internal", "1"), ("admix", "1"), ("side", "l")]) ||
                decide (e.attrs = [("internal", "1"), ("admix", "1"), ("side", "r")]))) = 0 := by
            have hb1 := insert_node_countP (fun e => e.tag == new_label t true &&
                !(decide (e.attrs = [("internal", "1"), ("admix", "1"), ("side", "l")]) ||
                  decide (e.attrs = [("internal", "1"), ("admix", "1"), ("side", "r")])))
              (fun _ _ _ _ => rfl) t k1 (new_label t true)
              [("internal", "1"), ("admix", "1"), ("side", "l")] false t1 _ h1
              (by simp [hna t])
            have hb2 := insert_node_countP (fun e => e.tag == new_label t true &&
                !(decide (e.attrs = [("internal", "1"), ("admix", "1"), ("side", "l")]) ||
                  decide (e.attrs = [("internal", "1"), ("admix", "1"), ("side", "r")])))
              (fun _ _ _ _ => rfl) t1 k2 (new_label t true)
              [("internal", "1"), ("admix", "1"), ("side", "r")] false t2 _ h2
              (by simp [hna t1])
            rw [ite_of_false (by simp)] at hb1
            rw [ite_of_false (by simp)] at hb2
            have hb0 : (preorder t).countP (fun e => e.tag == new_label t true &&
                !(decide (e.attrs = [("internal", "1"), ("admix", "1"), ("side", "l")]) ||
                  decide (e.attrs = [("internal", "1"), ("admix", "1"), ("side", "r")]))) = 0 := by
              have hle := List.countP_mono_left (l := preorder t)
                (p := fun e => e.tag == new_label t true &&
                  !(decide (e.attrs = [("internal", "1"), ("admix", "1"), ("side", "l")]) ||
                    decide (e.attrs = [("internal", "1"), ("admix", "1"), ("side", "r")])))
                (q := fun e => e.tag == new_label t true)
                (fun e _ hp => by
                  simp only [Bool.and_eq_true] at hp
                  exact hp.1)
              omega
            omega
          have hcmem : cnode ∈ preorder t2 := nodeAt_mem path3 t2 cnode hnode
          cases hlt : strLt k1.tag k2.tag with
          | true =>
            rw [hlt] at hmatch
            simp only [if_true] at hmatch
            have hmatch2 : matchKey ⟨new_label t true, some "l"⟩ cnode = true := hmatch
            simp only [matchKey] at hmatch2
            simp only [Bool.and_eq_true] at hmatch2
            obtain ⟨htg, hside⟩ := hmatch2
            have htg2 : cnode.tag = new_label t true := (beq_iff_eq.mp htg).symm
            have hnotbad : ¬ ((fun e => e.tag == new_label t true &&
                !(decide (e.attrs = [("internal", "1"), ("admix", "1"), ("side", "l")]) ||
                  decide (e.attrs = [("internal", "1"), ("admix", "1"), ("side", "r")])))
                  cnode = true) := by
              intro hbadc
              have hpos : 0 < (preorder t2).countP (fun e => e.tag == new_label t true &&
                  !(decide (e.attrs = [("internal", "1"), ("admix", "1"), ("side", "l")]) ||
                    decide (e.attrs = [("internal", "1"), ("admix", "1"), ("side", "r")]))) :=
                List.countP_pos_iff.mpr ⟨cnode, hcmem, hbadc⟩
              omega
            have hattrs : cnode.attrs = [("internal", "1"), ("admix", "1"), ("side", "l")] ∨
                cnode.attrs = [("internal", "1"), ("admix", "1"), ("side", "r")] := by
              by_contra hcon
              push_neg at hcon
              refine hnotbad ?_
              show (cnode.tag == new_label t true &&
                !(decide (cnode.attrs = _) || decide (cnode.attrs = _))) = true
              rw [htg2]
              simp [hcon.1, hcon.2]
            rcases hattrs with hal | har
            · rw [htg2, hal]
              simp
            · exfalso
              have hsd : cnode.getAttr "side" = some "r" := by
                cases cnode with
                | mk ctg cattrs ccs =>
                  simp only [Elem.attrs] at har
                  subst har
                  rfl
              rw [hsd] at hside
              simp at hside
          | false =>
            rw [hlt] at hmatch
            simp only [Bool.false_eq_true, if_false] at hmatch
            have hmatch2 : matchKey ⟨new_label t true, some "r"⟩ cnode = true := hmatch
            simp only [matchKey] at hmatch2
            simp only [Bool.and_eq_true] at hmatch2
            obtain ⟨htg, hside⟩ := hmatch2
            have htg2 : cnode.tag = new_label t true := (beq_iff_eq.mp htg).symm
            have hnotbad : ¬ ((fun e => e.tag == new_label t true &&
                !(decide (e.attrs = [("internal", "1"), ("admix", "1"), ("side", "l")]) ||
                  decide (e.attrs = [("internal", "1"), ("admix", "1"), ("side", "r")])))
                  cnode = true) := by
              intro hbadc
              have hpos : 0 < (preorder t2).countP (fun e => e.tag == new_label t true &&
                  !(decide (e.attrs = [("internal", "1"), ("admix", "1"), ("side", "l")]) ||
                    decide (e.attrs = [("internal", "1"), ("admix", "1"), ("side", "r")]))) :=
                List.countP_pos_iff.mpr ⟨cnode, hcmem, hbadc⟩
              omega
            have hattrs : cnode.attrs = [("internal", "1"), ("admix", "1"), ("side", "l")] ∨
                cnode.attrs = [("internal", "1"), ("admix", "1"), ("side", "r")] := by
              by_contra hcon
              push_neg at hcon
              refine hnotbad ?_
              show (cnode.tag == new_label t true &&
                !(decide (cnode.attrs = _) || decide (cnode.attrs = _))) = true
              rw [htg2]
              simp [hcon.1, hcon.2]
            rcases hattrs with hal | har
            · exfalso
              have hsd : cnode.getAttr "side" = some "l" := by
                cases cnode with
                | mk ctg cattrs ccs =>
                  simp only [Elem.attrs] at hal
                  subst hal
                  rfl
              rw [hsd] at hside
              simp at hside
            · rw [htg2, har]
              simp
        · exact absurd hff (by simp)

def c5tree : Elem := mkE "R" [] [mkE "Out" [] [], mkE "A" [] [], mkE "B" [] []]

def c5out : Elem :=
  mkE "R" [] [mkE "Out" [] [],
    mkE "n1" [("internal", "1")] [mkE "A" [] [],
      mkE "a1" [("internal", "1"), ("admix", "1"), ("side", "l")] [mkE "C" [] []]],
    mkE "n2" [("internal", "1")] [mkE "B" [] [],
      mkE "a1" [("internal", "1"), ("admix", "1"), ("side", "r")] []]]

theorem claim5_admixture_insertion_witness :
    ("A" : String) ≠ "B" ∧
    admix_insert c5tree ⟨"A", none⟩ ⟨"B", none⟩ "C" = some c5out ∧
    ((preorder c5out).countP (fun e => e.tag == new_label c5tree true) = 2 ∧
      (preorder c5out).countP (fun e => e.tag == new_label c5tree true &&
        decide (e.attrs = [("internal", "1"), ("admix", "1"), ("side", "l")])) = 1 ∧
      (preorder c5out).countP (fun e => e.tag == new_label c5tree true &&
        decide (e.attrs = [("internal", "1"), ("admix", "1"), ("side", "r")])) = 1 ∧
      (preorder c5out).countP (fun e => e.tag == "C") = 1 ∧
      parentsOf c5out "C" = [(new_label c5tree true,
        [("internal", "1"), ("admix", "1"),
          ("side", if strLt "A" "B" then "l" else "r")])]) :=
  ⟨by decide, by decide,
    claim5_admixture_insertion c5tree ⟨"A", none⟩ ⟨"B", none⟩ "C" c5out
      (by decide) (by decide) (by decide) (by decide) (by decide) (by decide)⟩

theorem pairsComb_mem {α : Type} : ∀ (l : List α) (x y : α),
    (x, y) ∈ pairsComb l → x ∈ l ∧ y ∈ l := by
  intro l
  induction l with
  | nil => intro x y h; simp [pairsComb] at h
  | cons a l ih =>
    intro x y h
    simp only [pairsComb, List.mem_append] at h
    rcases h with h | h
    · obtain ⟨b, hb, hxy⟩ := List.mem_map.mp h
      obtain ⟨hx, hy⟩ := Prod.mk.injEq .. ▸ hxy
      subst hx
      subst hy
      exact ⟨List.mem_cons_self a l, List.mem_cons_of_mem a hb⟩
    · obtain ⟨hx, hy⟩ := ih x y h
      exact ⟨List.mem_cons_of_mem a hx, List.mem_cons_of_mem a hy⟩

theorem optionMapM_total {α β : Type} (f : α → Option β) :
    ∀ l : List α, (∀ x ∈ l, ∃ y, f x = some y) → ∃ ys, optionMapM f l = some ys := by
  intro l
  induction l with
  | nil => intro _; exact ⟨[], rfl⟩
  | cons a l ih =>
    intro h
    obtain ⟨y, hy⟩ := h a (List.mem_cons_self a l)
    obtain ⟨ys, hys⟩ := ih (fun x hx => h x (List.mem_cons_of_mem a hx))
    refine ⟨y :: ys, ?_⟩
    simp only [optionMapM, hy, hys]
    rfl

mutual
/-- Exhaustiveness of the XPath search on an element: when it returns
nothing, no proper descendant matches the key. -/
theorem findPathE_exhaustive (k : NodeKey) :
    (t : Elem) → findPathE k t = none → ∀ e ∈ descendants t, matchKey k e = false
  | .mk tg a cs => by
    intro h e he
    rw [findPathE] at h
    exact findPathF_exhaustive k cs h e he

/-- Exhaustiveness of the XPath search on a forest. -/
theorem findPathF_exhaustive (k : NodeKey) :
    (cs : ElemList) → findPathF k cs = none → ∀ e ∈ preorderL cs, matchKey k e = false
  | .nil => by
    intro h e he
    rw [preorderL_nil] at he
    exact absurd he (List.not_mem_nil e)
  | .cons c cs => by
    intro h e he
    rw [findPathF] at h
    by_cases hm : matchKey k c = true
    · rw [if_pos hm] at h
      exact Option.noConfusion h
    · rw [if_neg hm] at h
      cases hE : findPathE k c with
      | some p =>
        rw [hE] at h
        exact Option.noConfusion h
      | none =>
        rw [hE] at h
        have hF : findPathF k cs = none := by
          cases hF2 : findPathF k cs with
          | none => rfl
          | some q =>
            rw [hF2] at h
            simp at h
        rw [preorderL_cons, List.mem_append] at he
        rcases he with he1 | he2
        · cases c with
          | mk tg2 a2 cs2 =>
            rw [preorder_mk] at he1
            rcases List.mem_cons.mp he1 with he0 | hdesc
            · subst he0
              exact Bool.eq_false_iff.mpr hm
            · exact findPathE_exhaustive k (.mk tg2 a2 cs2) hE e hdesc
        · exact findPathF_exhaustive k cs hF e he2
end

theorem surgeryAp_total (newNode : Elem) :
    ∀ (p : List Nat) (t c : Elem), nodeAt t p = some c →
      ∃ t', surgeryAp newNode t p = some t' := by
  intro p
  induction p with
  | nil =>
    intro t c _
    cases t with
    | mk tg a cs => exact ⟨_, rfl⟩
  | cons i rest ih =>
    intro t c h
    cases t with
    | mk tg a cs =>
      simp only [nodeAt] at h
      cases hci : (Elem.mk tg a cs).childList[i]? with
      | none =>
        simp only [hci] at h
        exact Option.noConfusion h
      | some ch =>
        simp only [hci] at h
        obtain ⟨c', hc'⟩ := ih ch c h
        refine ⟨Elem.mk tg a (ofList (cs.toList.set i c')), ?_⟩
        simp only [surgeryAp]
        simp only [show cs.toList[i]? = some ch from hci, hc']
        rfl

theorem surgeryNA_total (label : String) (newNode : Elem) :
    ∀ (rest : List Nat) (i : Nat) (t c : Elem), nodeAt t (i :: rest) = some c →
      ∃ t', surgeryNA label newNode t (i :: rest) = some t' := by
  intro rest
  induction rest with
  | nil =>
    intro i t c h
    cases t with
    | mk tg a cs =>
      simp only [nodeAt] at h
      cases hci : (Elem.mk tg a cs).childList[i]? with
      | none =>
        simp only [hci] at h
        exact Option.noConfusion h
      | some ch =>
        refine ⟨Elem.mk tg a (ofList
          (if cs.toList.length > 1 then
            (cs.toList.eraseIdx i) ++ [mkE label [("internal", "1")] [ch, newNode]]
           else cs.toList ++ [newNode])), ?_⟩
        simp only [surgeryNA]
        simp only [show cs.toList[i]? = some ch from hci]
  | cons j rest ih =>
    intro i t c h
    cases t with
    | mk tg a cs =>
      simp only [nodeAt] at h
      cases hci : (Elem.mk tg a cs).childList[i]? with
      | none =>
        simp only [hci] at h
        exact Option.noConfusion h
      | some ch =>
        simp only [hci] at h
        obtain ⟨c', hc'⟩ := ih j ch c h
        refine ⟨Elem.mk tg a (ofList (cs.toList.set i c')), ?_⟩
        simp only [surgeryNA]
        simp only [show cs.toList[i]? = some ch from hci, hc']
        rfl

theorem insert_node_total (t : Elem) (k : NodeKey) (new_tag : String)
    (attrs : List (String × String)) (ap : Bool)
    (hex : ∃ e ∈ descendants t, matchKey k e = true) :
    ∃ t' n, insert_node t k new_tag attrs ap = some (t', n) := by
  obtain ⟨e, he, hme⟩ := hex
  cases hfp : findPathE k t with
  | none =>
    rw [findPathE_exhaustive k t hfp e he] at hme
    exact Bool.noConfusion hme
  | some path =>
    obtain ⟨c, hnode, hmc, hne⟩ := findPath_sound k t path hfp
    cases ap with
    | true =>
      obtain ⟨t', ht'⟩ := surgeryAp_total (mkE new_tag attrs []) path t c hnode
      refine ⟨t', mkE new_tag attrs [], ?_⟩
      simp only [insert_node, hfp, ht']
      rfl
    | false =>
      cases path with
      | nil => exact absurd rfl hne
      | cons i rest =>
        obtain ⟨t', ht'⟩ :=
          surgeryNA_total (new_label t false) (mkE new_tag attrs []) rest i t c hnode
        refine ⟨t', mkE new_tag attrs [], ?_⟩
        simp only [insert_node, hfp, ht']
        rfl

theorem insert_node_countP_ge (P : Elem → Bool)
    (hP : ∀ tg a cs cs', P (.mk tg a cs) = P (.mk tg a cs'))
    (t : Elem) (k : NodeKey) (new_tag : String) (attrs : List (String × String))
    (ap : Bool) (t' n : Elem) (h : insert_node t k new_tag attrs ap = some (t', n)) :
    (preorder t).countP P ≤ (preorder t').countP P := by
  obtain ⟨-, path, -, hor⟩ := insert_node_some t k new_tag attrs ap t' n h
  rcases hor with ⟨-, hs⟩ | ⟨-, hs⟩
  · rw [surgeryAp_countP P hP _ path t t' hs]
    omega
  · rcases surgeryNA_countP P hP _ _ path t t' hs with he | he <;> rw [he] <;> omega

theorem insert_node_root (t : Elem) (k : NodeKey) (new_tag : String)
    (attrs : List (String × String)) (ap : Bool) (t' n : Elem)
    (h : insert_node t k new_tag attrs ap = some (t', n)) :
    t'.tag = t.tag ∧ t'.attrs = t.attrs := by
  obtain ⟨-, path, -, hor⟩ := insert_node_some t k new_tag attrs ap t' n h
  rcases hor with ⟨-, hs⟩ | ⟨-, hs⟩
  · exact surgeryAp_root' _ t path t' hs
  · exact surgeryNA_root' _ _ t path t' hs

theorem insert_node_desc_countP_ge (P : Elem → Bool)
    (hP : ∀ tg a cs cs', P (.mk tg a cs) = P (.mk tg a cs'))
    (t : Elem) (k : NodeKey) (new_tag : String) (attrs : List (String × String))
    (ap : Bool) (t' n : Elem) (h : insert_node t k new_tag attrs ap = some (t', n)) :
    (descendants t).countP P ≤ (descendants t').countP P := by
  have h1 := insert_node_countP_ge P hP t k new_tag attrs ap t' n h
  have h2 := insert_node_root t k new_tag attrs ap t' n h
  have e1 := countP_descendants P hP t
  have e2 := countP_descendants P hP t'
  rw [h2.1, h2.2] at e2
  generalize (if P (mkE t.tag t.attrs []) = true then 1 else 0) = b at e1 e2
  omega

theorem insert_node_desc_countP_pos (P : Elem → Bool)
    (hP : ∀ tg a cs cs', P (.mk tg a cs) = P (.mk tg a cs'))
    (t : Elem) (k : NodeKey) (new_tag : String) (attrs : List (String × String))
    (ap : Bool) (t' n : Elem) (h : insert_node t k new_tag attrs ap = some (t', n))
    (hnew : P (mkE new_tag attrs []) = true)
    (hinter : P (mkE (new_label t false) [("internal", "1")] []) = false) :
    0 < (descendants t').countP P := by
  have h1 := insert_node_countP P hP t k new_tag attrs ap t' n h hinter
  rw [ite_of_true hnew] at h1
  have h2 := insert_node_root t k new_tag attrs ap t' n h
  have e1 := countP_descendants P hP t
  have e2 := countP_descendants P hP t'
  rw [h2.1, h2.2] at e2
  generalize (if P (mkE t.tag t.attrs []) = true then 1 else 0) = b at e1 e2
  omega

theorem admix_insert_total (t : Elem) (e1 e2 : Elem) (new_tag : String)
    (h1 : e1 ∈ descendants t) (h2 : e2 ∈ descendants t) :
    ∃ t3, admix_insert t (keyOf e1) (keyOf e2) new_tag = some t3 := by
  obtain ⟨t1, n1, hi1⟩ := insert_node_total t (keyOf e1) (new_label t true)
    [("internal", "1"), ("admix", "1"), ("side", "l")] false
    ⟨e1, h1, matchKey_keyOf_self e1⟩
  have hc0 : 0 < (descendants t).countP (fun e => matchKey (keyOf e2) e) :=
    List.countP_pos_iff.mpr ⟨e2, h2, matchKey_keyOf_self e2⟩
  have hge1 := insert_node_desc_countP_ge (fun e => matchKey (keyOf e2) e)
    (fun _ _ _ _ => rfl) t _ _ _ _ _ _ hi1
  obtain ⟨e2', he2', hme2'⟩ := List.countP_pos_iff.mp (lt_of_lt_of_le hc0 hge1)
  obtain ⟨t2, n2, hi2⟩ := insert_node_total t1 (keyOf e2) (new_label t true)
    [("internal", "1"), ("admix", "1"), ("side", "r")] false ⟨e2', he2', hme2'⟩
  obtain ⟨hn1, -⟩ := insert_node_some t (keyOf e1) (new_label t true)
    [("internal", "1"), ("admix", "1"), ("side", "l")] false t1 n1 hi1
  obtain ⟨hn2, -⟩ := insert_node_some t1 (keyOf e2) (new_label t true)
    [("internal", "1"), ("admix", "1"), ("side", "r")] false t2 n2 hi2
  have hsel : ∃ e ∈ descendants t2,
      matchKey (keyOf (if strLt (keyOf e1).tag (keyOf e2).tag then n1 else n2)) e = true := by
    cases hlt : strLt (keyOf e1).tag (keyOf e2).tag with
    | true =>
      rw [if_pos rfl]
      have hbeq : ((new_label t true) == new_label t false) = false :=
        beq_eq_false_of_head _ _ (by rw [new_label_head, new_label_head]; simp)
      have hpos1 : 0 < (descendants t1).countP (fun e => matchKey (keyOf n1) e) := by
        refine insert_node_desc_countP_pos (fun e => matchKey (keyOf n1) e)
          (fun _ _ _ _ => rfl) t _ _ _ _ _ _ hi1 ?_ ?_
        · rw [hn1]
          exact matchKey_keyOf_self _
        · simp only [matchKey]
          rw [show ((keyOf n1).tag ==
              (mkE (new_label t false) [("internal", "1")] []).tag) = false from by
            rw [hn1]; exact hbeq]
          simp
      have hge2 := insert_node_desc_countP_ge (fun e => matchKey (keyOf n1) e)
        (fun _ _ _ _ => rfl) t1 _ _ _ _ _ _ hi2
      exact List.countP_pos_iff.mp (lt_of_lt_of_le hpos1 hge2)
    | false =>
      rw [if_neg (by simp [hlt])]
      have hbeq : ((new_label t true) == new_label t1 false) = false :=
        beq_eq_false_of_head _ _ (by rw [new_label_head, new_label_head]; simp)
      refine List.countP_pos_iff.mp
        (insert_node_desc_countP_pos (fun e => matchKey (keyOf n2) e)
          (fun _ _ _ _ => rfl) t1 _ _ _ _ _ _ hi2 ?_ ?_)
      · rw [hn2]
        exact matchKey_keyOf_self _
      · simp only [matchKey]
        rw [show ((keyOf n2).tag ==
            (mkE (new_label t1 false) [("internal", "1")] []).tag) = false from by
          rw [hn2]; exact hbeq]
        simp
  obtain ⟨esel, hesel, hmsel⟩ := hsel
  obtain ⟨t3, n3, hi3⟩ := insert_node_total t2
    (keyOf (if strLt (keyOf e1).tag (keyOf e2).tag then n1 else n2)) new_tag [] true
    ⟨esel, hesel, hmsel⟩
  refine ⟨t3, ?_⟩
  simp only [admix_insert, hi1, hi2, hi3]

theorem buildRegular_total (root_tree : Elem) (target_nodes : List Elem) (new_tag : String)
    (htn : ∀ tn ∈ target_nodes, tn ∈ descendants root_tree) :
    ∃ trees, buildRegular root_tree target_nodes new_tag = some trees := by
  refine optionMapM_total _ target_nodes ?_
  intro tn hmem
  obtain ⟨t', n, h⟩ := insert_node_total root_tree (keyOf tn) new_tag [] false
    ⟨tn, htn tn hmem, matchKey_keyOf_self tn⟩
  exact ⟨t', by rw [h]; rfl⟩

theorem buildAdmix_total (root_tree : Elem) (target_nodes : List Elem) (new_tag : String)
    (htn : ∀ tn ∈ target_nodes, tn ∈ descendants root_tree) :
    ∃ trees, buildAdmix root_tree target_nodes new_tag = some trees := by
  refine optionMapM_total _ _ ?_
  intro pr hmem
  have hmem2 := List.mem_filter.mp hmem
  obtain ⟨hx, hy⟩ := pairsComb_mem target_nodes pr.1 pr.2 (by
    have := hmem2.1
    cases pr
    exact this)
  exact admix_insert_total root_tree pr.1 pr.2 new_tag (htn _ hx) (htn _ hy)

theorem countP_not_contains_anti (l1 l2 : List String) (h : l1 ⊆ l2) (xs : List String) :
    xs.countP (fun x => !(l2.contains x)) ≤ xs.countP (fun x => !(l1.contains x)) := by
  refine List.countP_mono_left ?_
  intro a _ hp
  have h2 : a ∉ l2 := by simpa using hp
  simpa using fun hc => h2 (h hc)

/-- Decreasing measure of one `recurse_tree` activation: the queue length
plus the number of (tag-queue) entries not yet marked as problem nodes.
Descending into the queue drops the first summand; a deferral keeps the
queue length but marks a previously unmarked tag, dropping the second. -/
def searchMeasure (new_tag : String) (remaining : List String) (problem : List String) : Nat :=
  remaining.length + (new_tag :: remaining).countP (fun x => !(problem.contains x))

theorem check_loop_total
    (recurse : Elem → String → List String → Nat → SState → SState × Res Unit)
    (threshold : Nat) (remaining : List String) (depth : Nat)
    (P : SState → Prop)
    (hPmono : ∀ s s', SLe s s' → P s → P s')
    (hmono : ∀ t tg rm d s, SLe s (recurse t tg rm d s).1)
    (hrec : ∀ t r0 rrest s, remaining = r0 :: rrest → P s →
      (∃ s', recurse t r0 rrest (depth + 1) s = (s', .ok ())) ∨
        ∃ s' m, recurse t r0 rrest (depth + 1) s = (s', .unplaceable m)) :
    ∀ (results : List (Elem × List (List String) × String)) (placed : Bool) (st : SState),
      P st →
      (∃ st' b, check_loop recurse threshold remaining depth results placed st = (st', .ok b)) ∨
        ∃ st' m,
          check_loop recurse threshold remaining depth results placed st =
            (st', .unplaceable m) := by
  intro results
  induction results with
  | nil =>
    intro placed st _
    exact Or.inl ⟨st, placed, rfl⟩
  | cons r rest ih =>
    obtain ⟨new_tree, outliers, gname⟩ := r
    intro placed st hPst
    have hle1 : SLe st { st with tested_graphs := addSet st.tested_graphs gname } :=
      ⟨List.Subset.refl _, subset_addSet _ _, List.Subset.refl _⟩
    have hP1 : P { st with tested_graphs := addSet st.tested_graphs gname } :=
      hPmono _ _ hle1 hPst
    simp only [check_loop]
    by_cases houtl : outliers.length ≤ threshold
    · rw [if_pos houtl]
      cases hrm : remaining with
      | nil =>
        subst hrm
        refine ih true
          { problem_nodes := st.problem_nodes,
            tested_graphs := addSet st.tested_graphs gname,
            solutions := addSet st.solutions gname } ?_
        exact hPmono { st with tested_graphs := addSet st.tested_graphs gname } _
          ⟨List.Subset.refl _, List.Subset.refl _, subset_addSet _ _⟩ hP1
      | cons r0 rrest =>
        subst hrm
        rcases hrec new_tree r0 rrest _ rfl hP1 with ⟨s2, hok⟩ | ⟨s2, m, hun⟩
        · simp only [hok]
          have hle2 : SLe { st with tested_graphs := addSet st.tested_graphs gname } s2 := by
            have := hmono new_tree r0 rrest (depth + 1)
              { st with tested_graphs := addSet st.tested_graphs gname }
            rw [hok] at this
            exact this
          exact ih true s2 (hPmono _ _ hle2 hP1)
        · simp only [hun]
          exact Or.inr ⟨s2, m, rfl⟩
    · rw [if_neg houtl]
      exact ih placed _ hP1

theorem recurse_tree_total (cfg : Config) :
    ∀ (fuel : Nat) (root_tree : Elem) (new_tag : String) (remaining : List String)
      (depth : Nat) (st : SState),
      searchMeasure new_tag remaining st.problem_nodes < fuel →
      (∃ st', recurse_tree cfg fuel root_tree new_tag remaining depth st = (st', .ok ())) ∨
        ∃ st' m,
          recurse_tree cfg fuel root_tree new_tag remaining depth st =
            (st', .unplaceable m) := by
  intro fuel
  induction fuel with
  | zero =>
    intro root_tree new_tag remaining depth st hmu
    exact absurd hmu (by omega)
  | succ fuel ih =>
    intro root_tree new_tag remaining depth st hmu
    have hPmono : ∀ s s' : SState, SLe s s' → st.problem_nodes ⊆ s.problem_nodes →
        st.problem_nodes ⊆ s'.problem_nodes := fun s s' hle hp => hp.trans hle.1
    have hmono : ∀ t tg rm d s, SLe s (recurse_tree cfg fuel t tg rm d s).1 :=
      fun t tg rm d s => recurse_tree_mono cfg fuel t tg rm d s
    have hrec : ∀ (t : Elem) (r0 : String) (rrest : List String) (s : SState),
        remaining = r0 :: rrest → st.problem_nodes ⊆ s.problem_nodes →
        (∃ s', recurse_tree cfg fuel t r0 rrest (depth + 1) s = (s', .ok ())) ∨
          ∃ s' m, recurse_tree cfg fuel t r0 rrest (depth + 1) s = (s', .unplaceable m) := by
      intro t r0 rrest s hrm hsub
      refine ih t r0 rrest (depth + 1) s ?_
      subst hrm
      unfold searchMeasure at hmu ⊢
      have ha : (r0 :: rrest).countP (fun x => !(s.problem_nodes.contains x)) ≤
          (r0 :: rrest).countP (fun x => !(st.problem_nodes.contains x)) :=
        countP_not_contains_anti _ _ hsub _
      have hb : (r0 :: rrest).countP (fun x => !(st.problem_nodes.contains x)) ≤
          (new_tag :: r0 :: rrest).countP (fun x => !(st.problem_nodes.contains x)) := by
        conv_rhs => rw [List.countP_cons]
        exact Nat.le_add_right _ _
      simp only [List.length_cons] at hmu ⊢
      omega
    simp only [recurse_tree]
    obtain ⟨new_trees, hbr⟩ := buildRegular_total root_tree
      ((descendants root_tree).filter (fun node => !(node.tag == cfg.outgroup))) new_tag
      (fun tn htn => (List.mem_filter.mp htn).1)
    simp only [hbr]
    have hct1 := check_loop_total (fun t tg rm d s => recurse_tree cfg fuel t tg rm d s)
      cfg.max_outlier_threshold remaining depth
      (fun s => st.problem_nodes ⊆ s.problem_nodes) hPmono hmono hrec
      (test_trees cfg new_trees) false st (List.Subset.refl _)
    rcases hct1 with ⟨st1, b, hc1⟩ | ⟨st1, m, hc1⟩
    · have hsub1 : st.problem_nodes ⊆ st1.problem_nodes := by
        have := check_loop_mono (fun t tg rm d s => recurse_tree cfg fuel t tg rm d s)
          (fun t tg rm d s => recurse_tree_mono cfg fuel t tg rm d s)
          cfg.max_outlier_threshold remaining depth (test_trees cfg new_trees) false st
        rw [hc1] at this
        exact this.1
      cases b with
      | true =>
        refine Or.inl ⟨st1, ?_⟩
        simp only [hc1]
        rw [if_pos trivial]
      | false =>
        simp only [hc1]
        rw [if_neg (by simp)]
        obtain ⟨admix_trees, hba⟩ := buildAdmix_total root_tree
          ((descendants root_tree).filter (fun node => !(node.tag == cfg.outgroup))) new_tag
          (fun tn htn => (List.mem_filter.mp htn).1)
        simp only [hba]
        have hct2 := check_loop_total (fun t tg rm d s => recurse_tree cfg fuel t tg rm d s)
          cfg.max_outlier_threshold remaining depth
          (fun s => st.problem_nodes ⊆ s.problem_nodes) hPmono hmono hrec
          (test_trees cfg admix_trees) false st1 hsub1
        rcases hct2 with ⟨st2, b2, hc2⟩ | ⟨st2, m, hc2⟩
        · have hsub2 : st.problem_nodes ⊆ st2.problem_nodes := by
            have := check_loop_mono (fun t tg rm d s => recurse_tree cfg fuel t tg rm d s)
              (fun t tg rm d s => recurse_tree_mono cfg fuel t tg rm d s)
              cfg.max_outlier_threshold remaining depth (test_trees cfg admix_trees) false st1
            rw [hc2] at this
            exact hsub1.trans this.1
          cases b2 with
          | true =>
            refine Or.inl ⟨st2, ?_⟩
            simp only [hc2]
            rw [if_pos trivial]
          | false =>
            simp only [hc2]
            rw [if_neg (by simp)]
            by_cases hcond : (!(st2.problem_nodes.contains new_tag) && !remaining.isEmpty
                && !cfg.exhaustive_search) = true
            · rw [if_pos hcond]
              have hrne : remaining ≠ [] := by
                intro hnil
                rw [hnil] at hcond
                simp at hcond
              cases hre : remaining with
              | nil => exact absurd hre hrne
              | cons r0 rrest =>
                subst hre
                simp only [List.cons_append]
                refine ih root_tree r0 (rrest ++ [new_tag]) depth
                  { st2 with problem_nodes := st2.problem_nodes ++ [new_tag] } ?_
                show searchMeasure r0 (rrest ++ [new_tag])
                  (st2.problem_nodes ++ [new_tag]) < fuel
                have hnin2 : new_tag ∉ st2.problem_nodes := by
                  simp only [Bool.and_eq_true] at hcond
                  simpa using hcond.1.1
                have hninSt : new_tag ∉ st.problem_nodes := fun hm => hnin2 (hsub2 hm)
                have hsub3 : st.problem_nodes ⊆ st2.problem_nodes ++ [new_tag] :=
                  hsub2.trans (List.subset_append_left _ _)
                unfold searchMeasure at hmu ⊢
                have e0 : (r0 :: (rrest ++ [new_tag])) = (r0 :: rrest) ++ [new_tag] := by simp
                rw [e0, List.countP_append]
                have e1 : ([new_tag] : List String).countP
                    (fun x => !((st2.problem_nodes ++ [new_tag]).contains x)) = 0 := by
                  simp
                rw [e1]
                have e2 : (r0 :: rrest).countP
                    (fun x => !((st2.problem_nodes ++ [new_tag]).contains x)) ≤
                      (r0 :: rrest).countP (fun x => !(st.problem_nodes.contains x)) :=
                  countP_not_contains_anti _ _ hsub3 _
                have e3 : (new_tag :: r0 :: rrest).countP
                    (fun x => !(st.problem_nodes.contains x)) =
                      (r0 :: rrest).countP (fun x => !(st.problem_nodes.contains x)) + 1 := by
                  have hval : (fun x => !(st.problem_nodes.contains x)) new_tag = true := by
                    simpa using hninSt
                  rw [List.countP_cons, ite_of_true hval]
                rw [e3] at hmu
                simp only [List.length_append, List.length_cons, List.length_nil] at hmu ⊢
                omega
            · rw [if_neg hcond]
              exact Or.inr ⟨st2, _, rfl⟩
        · simp only [hc2]
          exact Or.inr ⟨st2, m, rfl⟩
    · simp only [hc1]
      exact Or.inr ⟨st1, m, rfl⟩

/-- C3: termination per starting order.  For any configuration (the
oracle is a total function, i.e. returns a result for every query) and
any starting node list with at least two entries, a complete `find_graph`
call terminates: some finite recursion budget suffices, and under it the
call either returns normally (having recorded zero or more solutions) or
raises a single `NodeUnplaceable`; it neither crashes nor runs out of
budget, so it cannot loop indefinitely. -/
theorem claim3_termination (cfg : Config) (nodes : List String) (st : SState)
    (h2 : 2 ≤ nodes.length) :
    ∃ fuel st',
      find_graph cfg fuel nodes st = (st', .ok ()) ∨
        ∃ m, find_graph cfg fuel nodes st = (st', .unplaceable m) := by
  cases nodes with
  | nil => simp at h2
  | cons n0 rest0 =>
    cases rest0 with
    | nil => simp at h2
    | cons n1 rest =>
      refine ⟨searchMeasure n1 rest st.problem_nodes + 1, ?_⟩
      have htot := recurse_tree_total cfg (searchMeasure n1 rest st.problem_nodes + 1)
        (mkE "R" [] [mkE cfg.outgroup [] [], mkE n0 [] []]) n1 rest 0 st (by omega)
      rcases htot with ⟨st', hok⟩ | ⟨st', m, hun⟩
      · exact ⟨st', Or.inl (by simp only [find_graph]; exact hok)⟩
      · exact ⟨st', Or.inr ⟨m, by simp only [find_graph]; exact hun⟩⟩

theorem claim3_termination_witness :
    2 ≤ (["A", "B"] : List String).length ∧
      ∃ fuel st',
        find_graph cfg_pass fuel ["A", "B"] init_state = (st', .ok ()) ∨
          ∃ m, find_graph cfg_pass fuel ["A", "B"] init_state = (st', .unplaceable m) :=
  ⟨by decide, claim3_termination cfg_pass ["A", "B"] init_state (by decide)⟩
